import Mathlib

/-!
Verification development for the `text-layout` crate (box/glue/penalty paragraph
layout). The Rust sources are shallowly embedded: the numeric type parameter
(`f32` in the concrete algorithms) is modelled by exact rationals extended with
two infinities and a NaN value (`XR`); items, the greedy first-fit layout and
the Knuth-Plass dynamic-programming layout are translated function by function
from `src/lib.rs`, `src/first_fit.rs`, `src/knuth_plass.rs` and `src/math.rs`.
Rust panics (out-of-bounds indexing, `Option::unwrap` on `None`) are modelled by
`Option`-valued functions returning `none`.
-/

set_option maxRecDepth 8000

/-! ## Kernel-reducible rational arithmetic

Mathlib's `Rat.add`, `Rat.mul`, ... are `@[irreducible]`, which blocks
evaluation by `decide`.  The following operations compute the same values
through `mkRat` (which does reduce) and are connected to the standard
operations by the bridge lemmas below. -/

/-- Rational addition via `mkRat`; equal to `a + b` (see `qadd_eq`). -/
def qadd (a b : ℚ) : ℚ := mkRat (a.num * b.den + b.num * a.den) (a.den * b.den)

/-- Rational multiplication via `mkRat`; equal to `a * b` (see `qmul_eq`). -/
def qmul (a b : ℚ) : ℚ := mkRat (a.num * b.num) (a.den * b.den)

/-- Rational negation via `mkRat`; equal to `-a` (see `qneg_eq`). -/
def qneg (a : ℚ) : ℚ := mkRat (-a.num) a.den

/-- Rational inverse via `mkRat`; equal to `a⁻¹` (see `qinv_eq`). -/
def qinv (a : ℚ) : ℚ :=
  if 0 ≤ a.num then mkRat (a.den : ℤ) a.num.toNat else mkRat (-(a.den : ℤ)) (-a.num).toNat

/-- Rational division via `mkRat`; equal to `a / b` (see `qdiv_eq`). -/
def qdiv (a b : ℚ) : ℚ := qmul a (qinv b)

/-- Boolean strict comparison of rationals; reflects `a < b` (see `qblt_iff`). -/
def qblt (a b : ℚ) : Bool := decide (a.num * (b.den : ℤ) < b.num * (a.den : ℤ))

/-- Boolean comparison of rationals; reflects `a ≤ b` (see `qble_iff`). -/
def qble (a b : ℚ) : Bool := decide (a.num * (b.den : ℤ) ≤ b.num * (a.den : ℤ))

/-- Integer-to-rational conversion via `mkRat`; equal to the cast. -/
def qofInt (i : ℤ) : ℚ := mkRat i 1

theorem qadd_eq (a b : ℚ) : qadd a b = a + b := by
  rw [qadd, Rat.mkRat_eq_divInt, Nat.cast_mul]
  conv_rhs => rw [← Rat.num_divInt_den a, ← Rat.num_divInt_den b]
  rw [Rat.divInt_add_divInt _ _ (by exact_mod_cast a.den_nz) (by exact_mod_cast b.den_nz)]

theorem qmul_eq (a b : ℚ) : qmul a b = a * b := by
  rw [qmul, Rat.mkRat_eq_divInt, Nat.cast_mul, ← Rat.divInt_mul_divInt']
  rw [Rat.num_divInt_den, Rat.num_divInt_den]

theorem qneg_eq (a : ℚ) : qneg a = -a := by
  rw [qneg, Rat.mkRat_eq_divInt, ← Rat.neg_divInt, Rat.num_divInt_den]

theorem qinv_eq (a : ℚ) : qinv a = a⁻¹ := by
  rw [qinv, Rat.inv_def']
  rcases le_or_lt 0 a.num with h | h
  · rw [if_pos h, Rat.mkRat_eq_divInt, Int.toNat_of_nonneg h]
  · rw [if_neg (not_le.mpr h), Rat.mkRat_eq_divInt,
      Int.toNat_of_nonneg (by omega : (0:ℤ) ≤ -a.num), Rat.neg_divInt_neg]

theorem qdiv_eq (a b : ℚ) : qdiv a b = a / b := by
  rw [qdiv, qmul_eq, qinv_eq, div_eq_mul_inv]

theorem rat_le_iff (a b : ℚ) : a ≤ b ↔ a.num * (b.den:ℤ) ≤ b.num * (a.den:ℤ) := by
  have ha : (0:ℤ) < (a.den:ℤ) := by exact_mod_cast a.pos
  have hb : (0:ℤ) < (b.den:ℤ) := by exact_mod_cast b.pos
  conv_lhs => rw [← Rat.num_divInt_den a, ← Rat.num_divInt_den b]
  exact Rat.divInt_le_divInt ha hb

theorem rat_lt_iff (a b : ℚ) : a < b ↔ a.num * (b.den:ℤ) < b.num * (a.den:ℤ) := by
  rw [lt_iff_not_le, rat_le_iff b a, not_le]

theorem qblt_iff (a b : ℚ) : qblt a b = true ↔ a < b := by
  rw [qblt, decide_eq_true_iff, rat_lt_iff]

theorem qble_iff (a b : ℚ) : qble a b = true ↔ a ≤ b := by
  rw [qble, decide_eq_true_iff, rat_le_iff]

theorem qofInt_eq (i : ℤ) : qofInt i = (i : ℚ) := by
  rw [qofInt, Rat.mkRat_one]

/-! ## `XR`: the numeric model

The crate's concrete algorithms run on `f32`.  We idealize `f32` as the exact
rationals together with `+∞`, `-∞` and NaN (rounding is not modelled).  The
arithmetic and comparison operations below follow IEEE-754 semantics on this
domain: NaN propagates through arithmetic, every comparison involving NaN is
false, `∞ + (-∞)`, `0 * ∞`, `∞ / ∞` and `0 / 0` are NaN. -/

/-- Extended rationals with NaN: the model of `f32`. -/
inductive XR where
  | nan : XR
  | ninf : XR
  | fin (q : ℚ) : XR
  | inf : XR
deriving DecidableEq, Repr

instance : Inhabited XR := ⟨XR.fin 0⟩

namespace XR

/-- Model of `f32` negation. -/
def neg : XR → XR
  | nan => nan
  | ninf => inf
  | inf => ninf
  | fin q => fin (qneg q)

/-- Model of `f32` addition. -/
def add : XR → XR → XR
  | nan, _ => nan
  | _, nan => nan
  | inf, ninf => nan
  | ninf, inf => nan
  | inf, _ => inf
  | _, inf => inf
  | ninf, _ => ninf
  | _, ninf => ninf
  | fin a, fin b => fin (qadd a b)

/-- Model of `f32` subtraction. -/
def sub (a b : XR) : XR := add a (neg b)

/-- Model of `f32` multiplication. -/
def mul : XR → XR → XR
  | nan, _ => nan
  | _, nan => nan
  | inf, inf => inf
  | inf, ninf => ninf
  | ninf, inf => ninf
  | ninf, ninf => inf
  | inf, fin q => if qblt 0 q then inf else if qblt q 0 then ninf else nan
  | fin q, inf => if qblt 0 q then inf else if qblt q 0 then ninf else nan
  | ninf, fin q => if qblt 0 q then ninf else if qblt q 0 then inf else nan
  | fin q, ninf => if qblt 0 q then ninf else if qblt q 0 then inf else nan
  | fin a, fin b => fin (qmul a b)

/-- Model of `f32` division. -/
def div : XR → XR → XR
  | nan, _ => nan
  | _, nan => nan
  | inf, inf => nan
  | inf, ninf => nan
  | ninf, inf => nan
  | ninf, ninf => nan
  | inf, fin q => if qble 0 q then inf else ninf
  | ninf, fin q => if qble 0 q then ninf else inf
  | fin _, inf => fin 0
  | fin _, ninf => fin 0
  | fin a, fin b =>
    if b = 0 then (if qblt 0 a then inf else if qblt a 0 then ninf else nan)
    else fin (qdiv a b)

/-- Model of `f32::abs`. -/
def abs : XR → XR
  | nan => nan
  | ninf => inf
  | inf => inf
  | fin q => fin (if qblt q 0 then qneg q else q)

/-- Model of IEEE strict less-than (`<` on `f32`): false on NaN operands. -/
def blt : XR → XR → Bool
  | nan, _ => false
  | _, nan => false
  | ninf, ninf => false
  | ninf, _ => true
  | _, ninf => false
  | inf, _ => false
  | fin _, inf => true
  | fin a, fin b => qblt a b

/-- Model of IEEE less-or-equal (`<=` on `f32`): false on NaN operands. -/
def ble : XR → XR → Bool
  | nan, _ => false
  | _, nan => false
  | ninf, _ => true
  | _, ninf => false
  | _, inf => true
  | inf, fin _ => false
  | fin a, fin b => qble a b

/-- Model of `N::from(i)` (an `i16` converted to the numeric type). -/
def ofInt (i : ℤ) : XR := fin (qofInt i)

/-- Model of `x.pow(n)` at the natural powers the crate uses (2 and 3),
written as iterated multiplication. -/
def powi (x : XR) : Nat → XR
  | 0 => fin 1
  | n + 1 => mul (powi x n) x

end XR

instance : Add XR := ⟨XR.add⟩
instance : Sub XR := ⟨XR.sub⟩
instance : Mul XR := ⟨XR.mul⟩
instance : Div XR := ⟨XR.div⟩
instance : Neg XR := ⟨XR.neg⟩

/-! ## The item model (`src/lib.rs`)

The crate's `Item<N>` (with content payload type parameters in the version used
by `first_fit.rs`; payloads carry no layout information and are omitted here)
instantiated at the `f32` model `XR`. -/

/-- A single item in a paragraph: an unbreakable box, breakable elastic glue,
or a penalty break marker. -/
inductive Item where
  | box (width : XR)
  | glue (width stretch shrink : XR)
  | penalty (width cost : XR) (flagged : Bool)
deriving DecidableEq, Repr

instance : Inhabited Item := ⟨Item.box (XR.fin 0)⟩

/-- A single line of text as represented by its break point and adjustment
ratio (`Line<N>` from `src/lib.rs`). -/
structure Line where
  break_at : Nat
  adjustment_ratio : XR
deriving DecidableEq, Repr

instance : Inhabited Line := ⟨⟨0, XR.fin 0⟩⟩

namespace Item

/-- `Item::penalty_cost` from `src/lib.rs`. -/
def penalty_cost : Item → XR
  | penalty _ cost _ => cost
  | _ => XR.ofInt 0

/-- `Item::penalty_flag` from `src/lib.rs`: 1 for a flagged penalty, else 0. -/
def penalty_flag : Item → XR
  | penalty _ _ flagged => if flagged then XR.ofInt 1 else XR.ofInt 0
  | _ => XR.ofInt 0

/-- `Item::is_mandatory_break` from `src/lib.rs`. -/
def is_mandatory_break : Item → Bool
  | penalty _ cost _ => decide (cost = XR.ninf)
  | _ => false

/-- The `penalty_width` computation inlined at the top of both
`Item::adjustment_ratio` (`src/lib.rs`) and the free `adjustment_ratio`
(`src/knuth_plass.rs`). -/
def penalty_width : Item → XR
  | penalty width _ _ => width
  | _ => XR.ofInt 0

/-- `Item::is_legal_breakpoint` from `src/lib.rs`: returns the width, stretch
and shrink of the item together with whether it is a legal break, given the
preceding item (if any). -/
def is_legal_breakpoint (it : Item) (pred : Option Item) : XR × XR × XR × Bool :=
  match it with
  | box width => (width, XR.ofInt 0, XR.ofInt 0, false)
  | glue width stretch shrink =>
    (width, stretch, shrink, match pred with | some (box _) => true | _ => false)
  | penalty width cost _ => (width, XR.ofInt 0, XR.ofInt 0, !decide (cost = XR.inf))

/-- `Item::adjustment_ratio` from `src/lib.rs`: the adjustment ratio for a
break at this item, where `width`, `stretch`, `shrink` are the accumulated
metrics of the line ending at the break. -/
def adjustment_ratio (it : Item) (width stretch shrink line_width : XR) : XR :=
  let width := width + penalty_width it
  if XR.blt width line_width then
    if XR.blt (XR.ofInt 0) stretch then (line_width - width) / stretch else XR.inf
  else if XR.blt line_width width then
    if XR.blt (XR.ofInt 0) shrink then (line_width - width) / shrink else XR.ninf
  else XR.ofInt 0

end Item

namespace KnuthPlass

/-- The free function `adjustment_ratio` from `src/knuth_plass.rs`.  Note the
overfull-unshrinkable branch: it returns `f32::INFINITY` where
`Item::adjustment_ratio` in `src/lib.rs` returns `f32::NEG_INFINITY`. -/
def adjustment_ratio (at_ : Item) (width stretch shrink line_width : XR) : XR :=
  let width := width + Item.penalty_width at_
  if XR.blt width line_width then
    if XR.blt (XR.ofInt 0) stretch then (line_width - width) / stretch else XR.inf
  else if XR.blt line_width width then
    if XR.blt (XR.ofInt 0) shrink then (line_width - width) / shrink else XR.inf
  else XR.ofInt 0

end KnuthPlass

/-! ## The greedy layout (`src/first_fit.rs`)

`FirstFit::layout_paragraph` instantiated at the `f32` model.  The
configuration fields `line_width`, `threshold` and `allow_overflow` of
`FirstFitLayout` are passed as parameters; the mutable accumulator fields
(`width`, `stretch`, `shrink`, `lines`) form the `State` record. -/

namespace FirstFit

/-- The held breakpoint (`struct Break<N>` from `src/first_fit.rs`).  The
source field `at` is spelled `at_` because `at` is reserved in Lean. -/
structure Break where
  width : XR
  stretch : XR
  shrink : XR
  adjustment_ratio : XR
  is_mandatory : Bool
  at_ : Nat
deriving DecidableEq, Repr

/-- The mutable accumulator state of `FirstFitLayout`. -/
structure State where
  width : XR
  stretch : XR
  shrink : XR
  lines : List Line
deriving DecidableEq, Repr

/-- `FirstFitLayout::break_at`: push a line at the held breakpoint and
subtract the accumulators recorded when it was held. -/
def break_at (s : State) (b : Break) : State :=
  { width := s.width - b.width
    stretch := s.stretch - b.stretch
    shrink := s.shrink - b.shrink
    lines := s.lines ++ [⟨b.at_, b.adjustment_ratio⟩] }

/-- The `for (b, item)` loop of `FirstFitLayout::layout_paragraph`, as a
recursion over the remaining item suffix.  `pred` is the item preceding the
head of `rest` (if any) and `b` the index of that head; both early `return
Vec::new()` sites are translated as returning `[]`. -/
def layout_loop (line_width threshold : XR) (allow_overflow : Bool) :
    List Item → Option Item → Nat → State → Option Break → List Line
  | [], _, _, s, last_breakpoint =>
    (match last_breakpoint with
     | none => s
     | some bk => break_at s bk).lines
  | item :: rest, _pred, b, s, last_breakpoint =>
    let q := item.is_legal_breakpoint _pred
    let is_legal := q.2.2.2
    if is_legal then
      let r0 := item.adjustment_ratio s.width s.stretch s.shrink line_width
      let s1 :=
        match last_breakpoint with
        | some bk =>
          if XR.blt r0 (XR.ofInt (-1)) || XR.blt threshold r0 || bk.is_mandatory then
            break_at s bk
          else s
        | none => s
      let r1 := item.adjustment_ratio s1.width s1.stretch s1.shrink line_width
      if XR.blt r1 (XR.ofInt (-1)) && !allow_overflow then []
      else
        let r2 := if XR.blt r1 (XR.ofInt (-1)) then XR.ofInt 0 else r1
        if XR.blt threshold r2 then []
        else
          layout_loop line_width threshold allow_overflow rest (some item) (b + 1)
            { s1 with
                width := s1.width + q.1
                stretch := s1.stretch + q.2.1
                shrink := s1.shrink + q.2.2.1 }
            (some ⟨s1.width, s1.stretch, s1.shrink, r2, item.is_mandatory_break, b⟩)
    else
      layout_loop line_width threshold allow_overflow rest (some item) (b + 1)
        { s with
            width := s.width + q.1
            stretch := s.stretch + q.2.1
            shrink := s.shrink + q.2.2.1 }
        last_breakpoint

/-- `FirstFit::layout_paragraph` (via `FirstFitLayout::layout_paragraph`):
zero-initialized accumulators, no held breakpoint. -/
def layout_paragraph (items : List Item) (line_width threshold : XR)
    (allow_overflow : Bool) : List Line :=
  layout_loop line_width threshold allow_overflow items none 0
    ⟨XR.ofInt 0, XR.ofInt 0, XR.ofInt 0, []⟩ none

end FirstFit

/-! ## Basic lemmas about the numeric model -/

theorem qblt_eq (a b : ℚ) : qblt a b = decide (a < b) := by
  rw [Bool.eq_iff_iff, qblt_iff, decide_eq_true_iff]

theorem qble_eq (a b : ℚ) : qble a b = decide (a ≤ b) := by
  rw [Bool.eq_iff_iff, qble_iff, decide_eq_true_iff]

theorem XR.ofInt_eq (i : ℤ) : XR.ofInt i = XR.fin (i : ℚ) := by
  rw [XR.ofInt, qofInt_eq]

/-- Trichotomy for the IEEE comparison model away from NaN. -/
theorem XR.eq_of_not_blt (x y : XR) (hx : x ≠ XR.nan) (hy : y ≠ XR.nan)
    (h1 : XR.blt x y = false) (h2 : XR.blt y x = false) : x = y := by
  cases x <;> cases y <;>
    simp_all [XR.blt, qblt_eq, decide_eq_true_iff] <;> linarith

/-- Away from NaN, `x <= 0` is the negation of `0 < x`. -/
theorem XR.ble_zero_of_not_blt (x : XR) (hx : x ≠ XR.nan)
    (h : XR.blt (XR.ofInt 0) x = false) : XR.ble x (XR.ofInt 0) = true := by
  rw [XR.ofInt_eq] at h ⊢
  cases x <;> simp_all [XR.blt, XR.ble, qblt_eq, qble_eq]

/-- `0 < x` excludes `x <= 0` away from NaN. -/
theorem XR.not_ble_zero_of_blt (x : XR)
    (h : XR.blt (XR.ofInt 0) x = true) : XR.ble x (XR.ofInt 0) = false := by
  rw [XR.ofInt_eq] at h ⊢
  cases x <;> simp_all [XR.blt, XR.ble, qblt_eq, qble_eq]

/-! ## Claim C5: the adjustment-ratio formula -/

/-- The adjustment-ratio formula exactly as enumerated by the specification
(claim C5): with `w` the accumulated width plus the item's width if it is a
Penalty, return `(target−w)/stretch` if `w < target` and `stretch > 0`, `+∞`
if `w < target` and `stretch ≤ 0`, `(target−w)/shrink` if `w > target` and
`shrink > 0`, `−∞` if `w > target` and `shrink ≤ 0`, and `0` if `w = target`.
On inputs where the comparisons are vacuous (a NaN) the specification is
silent and this function returns NaN. -/
def spec_adjustment_ratio (it : Item) (width stretch shrink target : XR) : XR :=
  let w := width + Item.penalty_width it
  if XR.blt w target && XR.blt (XR.ofInt 0) stretch then (target - w) / stretch
  else if XR.blt w target && XR.ble stretch (XR.ofInt 0) then XR.inf
  else if XR.blt target w && XR.blt (XR.ofInt 0) shrink then (target - w) / shrink
  else if XR.blt target w && XR.ble shrink (XR.ofInt 0) then XR.ninf
  else if w = target then XR.ofInt 0
  else XR.nan

/-- C5 (confirmed): for every item and accumulated metrics,
`Item::adjustment_ratio` computes exactly the case analysis stated by the
specification — `(target−w)/stretch` when underfull and stretchable, `+∞`
when underfull and unstretchable, `(target−w)/shrink` when overfull and
shrinkable, `−∞` when overfull and unshrinkable, `0` on an exact fit — where
`w` adds the item's width exactly when the item is a Penalty.  The NaN
hypotheses restrict the statement to numerically meaningful inputs. -/
theorem c5_item_adjustment_ratio_matches_spec (it : Item) (width stretch shrink target : XR)
    (hw : width + Item.penalty_width it ≠ XR.nan) (ht : target ≠ XR.nan)
    (hst : stretch ≠ XR.nan) (hsh : shrink ≠ XR.nan) :
    Item.adjustment_ratio it width stretch shrink target
      = spec_adjustment_ratio it width stretch shrink target := by
  rw [Item.adjustment_ratio, spec_adjustment_ratio]
  set w := width + Item.penalty_width it with hwdef
  by_cases h1 : XR.blt w target = true
  · by_cases h2 : XR.blt (XR.ofInt 0) stretch = true
    · simp [h1, h2]
    · have h2' := XR.ble_zero_of_not_blt stretch hst (Bool.not_eq_true _ ▸ h2)
      simp [h1, h2, h2']
  · have h1' : XR.blt w target = false := Bool.not_eq_true _ ▸ h1
    by_cases h3 : XR.blt target w = true
    · by_cases h4 : XR.blt (XR.ofInt 0) shrink = true
      · simp [h1', h3, h4]
      · have h4' := XR.ble_zero_of_not_blt shrink hsh (Bool.not_eq_true _ ▸ h4)
        simp [h1', h3, h4, h4']
    · have h3' : XR.blt target w = false := Bool.not_eq_true _ ▸ h3
      have heq : w = target := XR.eq_of_not_blt w target hw ht h1' h3'
      rw [heq] at h1'
      simp [heq, h1']

/-- Witness for C5 at a concrete input: a penalty item of width 1 on an
accumulated width 4 against target 3 with shrink 2 gives ratio `(3−5)/2`. -/
theorem c5_item_adjustment_ratio_matches_spec_witness :
    Item.adjustment_ratio (Item.penalty (XR.ofInt 1) (XR.ofInt 0) false)
        (XR.ofInt 4) (XR.ofInt 1) (XR.ofInt 2) (XR.ofInt 3)
      = spec_adjustment_ratio (Item.penalty (XR.ofInt 1) (XR.ofInt 0) false)
        (XR.ofInt 4) (XR.ofInt 1) (XR.ofInt 2) (XR.ofInt 3) :=
  c5_item_adjustment_ratio_matches_spec _ _ _ _ _
    (by decide) (by decide) (by decide) (by decide)

/-! ## Claim C3: the two adjustment-ratio implementations -/

/-- C3 (code bug): the free function `adjustment_ratio` of `src/knuth_plass.rs`
does not agree with `Item::adjustment_ratio` of `src/lib.rs`: on an overfull
unshrinkable line (accumulated width 2, shrink 0, line width 1) the former
returns `+∞` while the latter returns `−∞`, contradicting the specification's
single shared formula (which prescribes `−∞` here). -/
theorem c3_free_adjustment_ratio_diverges_from_item_method :
    KnuthPlass.adjustment_ratio (Item.box (XR.ofInt 0))
        (XR.ofInt 2) (XR.ofInt 0) (XR.ofInt 0) (XR.ofInt 1) = XR.inf
    ∧ Item.adjustment_ratio (Item.box (XR.ofInt 0))
        (XR.ofInt 2) (XR.ofInt 0) (XR.ofInt 0) (XR.ofInt 1) = XR.ninf := by
  decide

/-! ## Claim C1: the specification's greedy-layout scenario -/

/-- The item sequence of the specification's scenario: `"aaa bbb"` as three
unit boxes, a glue of width 1 / stretch 1 / shrink 0, three unit boxes, a
final glue of width 0 with infinite stretch, and a terminal mandatory flagged
penalty. -/
def c1_items : List Item :=
  [Item.box (XR.ofInt 1), Item.box (XR.ofInt 1), Item.box (XR.ofInt 1),
   Item.glue (XR.ofInt 1) (XR.ofInt 1) (XR.ofInt 0),
   Item.box (XR.ofInt 1), Item.box (XR.ofInt 1), Item.box (XR.ofInt 1),
   Item.glue (XR.ofInt 0) XR.inf (XR.ofInt 0),
   Item.penalty (XR.ofInt 0) XR.ninf true]

/-- C1 (code bug): on the specification's scenario (`line_width = 3`,
`threshold = +∞`, `allow_overflow = false`) the greedy layout returns the
empty sequence instead of the two claimed lines.  The `Break` held at the
glue (item 3) records the accumulators excluding that glue, so after the
first line is cut the second line still carries the broken glue's width
(total 4 > 3) with zero shrink, the recomputed ratio is `−∞ < −1`, and with
overflow disallowed the layout fails. -/
theorem c1_greedy_scenario_returns_empty :
    FirstFit.layout_paragraph c1_items (XR.ofInt 3) XR.inf false = [] := by
  decide

/-! ## The saturating fixed-point wrapper (`src/math.rs`) -/

/-- A signed fixed-point format of the `fixed` crate (`F: FixedSigned`):
numerators are integers in `[lo, hi]` and the represented value is the
numerator divided by the positive scale `s` (`2^f` for `f` fractional bits).
`lo`/`hi` model `F::MIN`/`F::MAX`. -/
structure FixedFmt where
  lo : ℤ
  hi : ℤ
  s : ℤ
deriving DecidableEq, Repr

namespace Fixed

/-- Saturation as performed by the `fixed` crate's `saturating_*` family:
a result beyond the representable range stops at the nearest bound. -/
def saturate (F : FixedFmt) (x : ℤ) : ℤ :=
  if F.hi < x then F.hi else if x < F.lo then F.lo else x

/-- `impl Add for Fixed` (`src/math.rs`): `saturating_add` on numerators. -/
def add (F : FixedFmt) (a b : ℤ) : ℤ := saturate F (a + b)

/-- `impl Sub for Fixed` (`src/math.rs`): `saturating_sub` on numerators. -/
def sub (F : FixedFmt) (a b : ℤ) : ℤ := saturate F (a - b)

/-- `impl Mul for Fixed` (`src/math.rs`): `saturating_mul`; the exact product
of two fixed-point values has numerator `a*b/s`, truncated to the format. -/
def mul (F : FixedFmt) (a b : ℤ) : ℤ := saturate F ((a * b).fdiv F.s)

/-- `impl Div for Fixed` (`src/math.rs`): `saturating_div` (nonzero divisor). -/
def div (F : FixedFmt) (a b : ℤ) : ℤ := saturate F ((a * F.s).fdiv b)

/-- `Fixed::MAX` from `src/math.rs`. -/
def MAX (F : FixedFmt) : ℤ := F.hi

/-- `Fixed::MIN` from `src/math.rs`. -/
def MIN (F : FixedFmt) : ℤ := F.lo

/-- `impl Num for Fixed`: `const INFINITY: Self = Self::MAX`. -/
def INFINITY (F : FixedFmt) : ℤ := MAX F

/-- `impl Num for Fixed`: `const NEG_INFINITY: Self = Self::MIN`. -/
def NEG_INFINITY (F : FixedFmt) : ℤ := MIN F

end Fixed

/-- C9 (confirmed): every arithmetic operation of the `Fixed` wrapper
saturates — each result equals the exact (for mul/div: exact truncated)
result clamped into `[MIN, MAX]`, hence always lies in the representable
range instead of overflowing — and the infinity sentinels are exactly those
clamp values: `INFINITY = MAX` and `NEG_INFINITY = MIN`. -/
theorem c9_fixed_saturating_arithmetic (F : FixedFmt) (a b : ℤ)
    (hF : Fixed.MIN F ≤ Fixed.MAX F) :
    (Fixed.add F a b = max (Fixed.MIN F) (min (Fixed.MAX F) (a + b))
      ∧ Fixed.sub F a b = max (Fixed.MIN F) (min (Fixed.MAX F) (a - b))
      ∧ Fixed.mul F a b = max (Fixed.MIN F) (min (Fixed.MAX F) ((a * b).fdiv F.s))
      ∧ Fixed.div F a b = max (Fixed.MIN F) (min (Fixed.MAX F) ((a * F.s).fdiv b)))
    ∧ (Fixed.MIN F ≤ Fixed.add F a b ∧ Fixed.add F a b ≤ Fixed.MAX F)
    ∧ (Fixed.MIN F ≤ Fixed.sub F a b ∧ Fixed.sub F a b ≤ Fixed.MAX F)
    ∧ (Fixed.MIN F ≤ Fixed.mul F a b ∧ Fixed.mul F a b ≤ Fixed.MAX F)
    ∧ (Fixed.MIN F ≤ Fixed.div F a b ∧ Fixed.div F a b ≤ Fixed.MAX F)
    ∧ Fixed.INFINITY F = Fixed.MAX F ∧ Fixed.NEG_INFINITY F = Fixed.MIN F := by
  unfold Fixed.MIN Fixed.MAX at hF
  unfold Fixed.add Fixed.sub Fixed.mul Fixed.div Fixed.saturate
    Fixed.INFINITY Fixed.NEG_INFINITY Fixed.MAX Fixed.MIN
  refine ⟨⟨?_, ?_, ?_, ?_⟩, ⟨?_, ?_⟩, ⟨?_, ?_⟩, ⟨?_, ?_⟩, ⟨?_, ?_⟩, rfl, rfl⟩ <;>
    split <;> omega

/-- Witness for C9 at the i8-with-4-fractional-bits format on 100/16 and
60/16: the exact sum 10 overflows and saturates to `MAX`. -/
theorem c9_fixed_saturating_arithmetic_witness :
    Fixed.add ⟨-128, 127, 16⟩ 100 60
        = max (Fixed.MIN ⟨-128, 127, 16⟩) (min (Fixed.MAX ⟨-128, 127, 16⟩) (100 + 60))
      ∧ Fixed.MIN ⟨-128, 127, 16⟩ ≤ Fixed.add ⟨-128, 127, 16⟩ 100 60
      ∧ Fixed.INFINITY ⟨-128, 127, 16⟩ = Fixed.MAX ⟨-128, 127, 16⟩ :=
  ⟨(c9_fixed_saturating_arithmetic ⟨-128, 127, 16⟩ 100 60 (by decide)).1.1,
   (c9_fixed_saturating_arithmetic ⟨-128, 127, 16⟩ 100 60 (by decide)).2.1.1,
   (c9_fixed_saturating_arithmetic ⟨-128, 127, 16⟩ 100 60 (by decide)).2.2.2.2.2.1⟩

/-! ## The optimal layout (`src/knuth_plass.rs`)

`KnuthPlass::layout_paragraph` is specific to `f32` in the source; it is
embedded at the `f32` model `XR`.  The bump allocator holding break nodes is
modelled as an arena list, and the raw `previous`/`link` pointers as arena
indices.  Rust panics (the `items[b - 1]` underflow for a leading glue, the
`class_a[...].unwrap()`, and raw-pointer loops that would not terminate) are
modelled by `none`. -/

namespace KnuthPlass

/-- The four fitness classes (`enum Fitness` from `src/knuth_plass.rs`). -/
inductive Fitness where
  | zero
  | one
  | two
  | three
deriving DecidableEq, Repr

instance : Inhabited Fitness := ⟨Fitness.zero⟩

/-- The discriminant of a fitness class (its `usize` value in the source). -/
def Fitness.toNat : Fitness → Nat
  | .zero => 0
  | .one => 1
  | .two => 2
  | .three => 3

/-- `Fitness::distance`: absolute difference of discriminants. -/
def Fitness.distance (a b : Fitness) : Nat :=
  ((a.toNat : ℤ) - (b.toNat : ℤ)).natAbs

/-- A feasible-breakpoint candidate (`struct Node` from `src/knuth_plass.rs`).
`previous` is the best predecessor breakpoint, `link` the next active node;
both are arena indices standing for the source's raw pointers. -/
structure Node where
  position : Nat
  line : Nat
  fitness : Fitness
  total_width : XR
  total_stretch : XR
  total_shrink : XR
  total_demerits : XR
  previous : Option Nat
  link : Option Nat
deriving DecidableEq, Repr

instance : Inhabited Node where
  default := ⟨0, 0, default, XR.fin 0, XR.fin 0, XR.fin 0, XR.fin 0, none, none⟩

/-- The configuration of `KnuthPlass` (`src/knuth_plass.rs`): demerit weights,
the ratio threshold, and the `usize` looseness. -/
structure Config where
  flagged_demerit : XR
  fitness_demerit : XR
  threshold : XR
  looseness : Nat
deriving DecidableEq, Repr

/-- `KnuthPlass::new()`: the default configuration. -/
def Config.new : Config := ⟨XR.ofInt 100, XR.ofInt 100, XR.ofInt 1, 0⟩

/-- The mutable state of `KnuthPlassLayout`: the node arena (the bump
allocator), `first_uniform_line` (initialized to 0 and never written by the
source), the running totals, and the head of the active list. -/
structure State where
  arena : List Node
  first_uniform_line : Nat
  total_width : XR
  total_stretch : XR
  total_shrink : XR
  active : Option Nat
deriving DecidableEq, Repr

/-- Dereference an arena index (a valid raw pointer in the source). -/
def getN (s : State) (i : Nat) : Node := s.arena.getD i default

/-- Write the `link` field of the node at arena index `i` (the only node
field the source ever mutates after creation). -/
def setLink (s : State) (i : Nat) (l : Option Nat) : State :=
  { s with arena := s.arena.set i { getN s i with link := l } }

/-- `KnuthPlassLayout::new_node`: allocate a node, returning its index. -/
def new_node (s : State) (n : Node) : State × Nat :=
  ({ s with arena := s.arena ++ [n] }, s.arena.length)

/-- `KnuthPlassLayout::is_legal_breakpoint` (`src/knuth_plass.rs`): returns
width, stretch, shrink and legality of a break at `b`.  For glue it reads
`items[b - 1]` with no `b > 0` check: at `b = 0` the `usize` subtraction
underflows and the access panics, modelled by `none`. -/
def is_legal_breakpoint (items : List Item) (b : Nat) : Option (XR × XR × XR × Bool) :=
  match items.get? b with
  | none => none
  | some (.box width) => some (width, XR.ofInt 0, XR.ofInt 0, false)
  | some (.glue width stretch shrink) =>
    if b = 0 then none
    else
      match items.get? (b - 1) with
      | some (.box _) => some (width, stretch, shrink, true)
      | some _ => some (width, stretch, shrink, false)
      | none => none
  | some (.penalty width cost _) =>
    some (width, XR.ofInt 0, XR.ofInt 0, !decide (cost = XR.inf))

/-- `KnuthPlassLayout::adjustment_ratio` (the method): line number and ratio
for a line from the end of node `a` to breakpoint `b`; `get_line_width`
always returns the configured line width. -/
def layout_adjustment_ratio (items : List Item) (line_width : XR) (s : State)
    (a : Node) (b : Nat) : Nat × XR :=
  let j := a.line + 1
  (j, adjustment_ratio (items.getD b default) (s.total_width - a.total_width)
        (s.total_stretch - a.total_stretch) (s.total_shrink - a.total_shrink) line_width)

/-- `KnuthPlassLayout::deactivate_node`: unlink node `i` from the active
list.  Note the source unlinks through `a.previous` — the best-predecessor
breakpoint pointer, not the node's predecessor in the active list — and then
moves the head only when `a` is the head. -/
def deactivate_node (s : State) (i : Nat) : State :=
  let nd := getN s i
  let s1 :=
    match nd.previous with
    | some p => setLink s p nd.link
    | none => s
  if s1.active = some i then { s1 with active := (getN s1 i).link } else s1

/-- `KnuthPlassLayout::demerits_and_fitness`: demerits and fitness class for
a line of ratio `r` from node `a` to breakpoint `b`. -/
def demerits_and_fitness (items : List Item) (flagged_demerit fitness_demerit : XR)
    (r : XR) (a : Node) (b : Nat) : XR × Fitness :=
  let cost := (items.getD b default).penalty_cost
  let d :=
    if XR.ble (XR.ofInt 0) cost then
      XR.powi (XR.ofInt 1 + XR.ofInt 100 * XR.powi (XR.abs r) 3 + cost) 2
    else if !decide (cost = XR.ninf) then
      XR.powi (XR.ofInt 1 + XR.ofInt 100 * XR.powi (XR.abs r) 3) 2 - XR.powi cost 2
    else
      XR.powi (XR.ofInt 1 + XR.ofInt 100 * XR.powi (XR.abs r) 3) 2
  let d := d + flagged_demerit * (items.getD b default).penalty_flag
    * (items.getD a.position default).penalty_flag
  let c :=
    if XR.blt r (XR.fin (mkRat (-1) 2)) then Fitness.zero
    else if XR.ble r (XR.fin (mkRat 1 2)) then Fitness.one
    else if XR.ble r (XR.ofInt 1) then Fitness.two
    else Fitness.three
  let d := if 1 < Fitness.distance c a.fitness then d + fitness_demerit else d
  (d + a.total_demerits, c)

/-- The loop of `KnuthPlassLayout::total_after`: accumulate glue after the
breakpoint, stopping at a box or at a mandatory penalty strictly after `b`
(`not_first` is true exactly when `i > b`). -/
def total_after_go : List Item → Bool → XR × XR × XR → XR × XR × XR
  | [], _, acc => acc
  | .box _ :: _, _, acc => acc
  | .glue w st sh :: rest, _, (tw, ts, tz) =>
    total_after_go rest true (tw + w, ts + st, tz + sh)
  | .penalty _ cost _ :: rest, not_first, acc =>
    if decide (cost = XR.ninf) && not_first then acc else total_after_go rest true acc

/-- `KnuthPlassLayout::total_after`: the totals after breakpoint `b`
(the sums called sigma-w, sigma-y, sigma-z in Knuth-Plass 81). -/
def total_after (items : List Item) (s : State) (b : Nat) : XR × XR × XR :=
  total_after_go (items.drop b) false (s.total_width, s.total_stretch, s.total_shrink)

end KnuthPlass

namespace KnuthPlass

/-- The per-breakpoint candidate table of `layout_breakpoint`: the source's
`class_a: [Option<*mut Node>; 4]`, `class_demerits: [f32; 4]` (initialized to
`f32::INFINITY`) and `min_demerits`, indexed here by fitness class. -/
structure ClassBest where
  class_a : Fitness → Option Nat
  class_demerits : Fitness → XR
  min_demerits : XR

/-- The initial candidate table of each outer iteration. -/
def ClassBest.init : ClassBest := ⟨fun _ => none, fun _ => XR.inf, XR.inf⟩

/-- The inner `loop` of `layout_breakpoint`, scanning active nodes from index
`i`.  For each node: compute the ratio, deactivate on `r < -1` or a mandatory
break (otherwise advance `prev_a`), record the per-class best feasible
candidate, then follow the captured `link`.  The loop exits with the scan
cursor when its tail `break` condition fires (dead for
`first_uniform_line = 0`) or the list ends.  Fueled: exhaustion models a
non-terminating raw-pointer traversal and returns `none`. -/
def scan_active (items : List Item) (line_width threshold flagged_demerit fitness_demerit : XR)
    (b : Nat) :
    Nat → State → Nat → Option Nat → ClassBest →
    Option (State × Option Nat × Option Nat × ClassBest)
  | 0, _, _, _, _ => none
  | fuel + 1, s, i, prev_a, cb =>
    let ua := getN s i
    let next_a := ua.link
    let jr := layout_adjustment_ratio items line_width s ua b
    let j := jr.1
    let r := jr.2
    let sp :=
      if XR.blt r (XR.ofInt (-1)) || (items.getD b default).is_mandatory_break then
        (deactivate_node s i, prev_a)
      else (s, some i)
    let s1 := sp.1
    let prev_a1 := sp.2
    let cb1 :=
      if XR.ble (XR.ofInt (-1)) r && XR.ble r threshold then
        let df := demerits_and_fitness items flagged_demerit fitness_demerit r ua b
        let dem := df.1
        let fit := df.2
        if XR.blt dem (cb.class_demerits fit) then
          { class_a := fun c => if c = fit then some i else cb.class_a c
            class_demerits := fun c => if c = fit then dem else cb.class_demerits c
            min_demerits :=
              if XR.blt dem cb.min_demerits then dem else cb.min_demerits }
        else cb
      else cb
    match next_a with
    | none => some (s1, none, prev_a1, cb1)
    | some i2 =>
      if j ≤ (getN s1 i2).line ∧ j < s1.first_uniform_line then
        some (s1, some i2, prev_a1, cb1)
      else
        scan_active items line_width threshold flagged_demerit fitness_demerit b
          fuel s1 i2 prev_a1 cb1

/-- The node-creation `for c in [Zero, One, Two, Three]` loop at the end of
each outer iteration of `layout_breakpoint`: for every fitness class whose
best demerits are within the cutoff, allocate a node at `b` recording its
best predecessor (`class_a[c].unwrap()`: `none` models the panic) and splice
it into the active list after `prev_a` (or as the new head). -/
def create_nodes (b : Nat) (totals : XR × XR × XR) (cutoff : XR) (cb : ClassBest)
    (aRem : Option Nat) :
    List Fitness → State → Option Nat → Option (State × Option Nat)
  | [], s, prev_a => some (s, prev_a)
  | c :: cs, s, prev_a =>
    if XR.ble (cb.class_demerits c) cutoff then
      match cb.class_a c with
      | none => none
      | some ca =>
        let nodeNew : Node :=
          ⟨b, (getN s ca).line + 1, c, totals.1, totals.2.1, totals.2.2,
           cb.class_demerits c, some ca, aRem⟩
        let alloc := new_node s nodeNew
        let s1 := alloc.1
        let sIdx := alloc.2
        let s2 :=
          match prev_a with
          | none => { s1 with active := some sIdx }
          | some p => setLink s1 p (some sIdx)
        create_nodes b totals cutoff cb aRem cs s2 (some sIdx)
    else create_nodes b totals cutoff cb aRem cs s prev_a

/-- The outer `while a.is_some()` loop of `layout_breakpoint`: scan the
remaining actives with a fresh candidate table, then (if some candidate is
feasible) create the new nodes for `b` with cutoff
`min_demerits + fitness_demerit`. -/
def layout_breakpoint_go (items : List Item)
    (line_width threshold flagged_demerit fitness_demerit : XR) (b : Nat) :
    Nat → State → Option Nat → Option Nat → Option State
  | 0, _, _, _ => none
  | fuel + 1, s, a, prev_a =>
    match a with
    | none => some s
    | some i =>
      match scan_active items line_width threshold flagged_demerit fitness_demerit b
          (s.arena.length + 1) s i prev_a ClassBest.init with
      | none => none
      | some (s1, aRem, prev_a1, cb) =>
        if XR.blt cb.min_demerits XR.inf then
          let totals := total_after items s1 b
          let cutoff := cb.min_demerits + fitness_demerit
          match create_nodes b totals cutoff cb aRem
              [Fitness.zero, Fitness.one, Fitness.two, Fitness.three] s1 prev_a1 with
          | none => none
          | some (s2, prev_a2) =>
            layout_breakpoint_go items line_width threshold flagged_demerit fitness_demerit b
              fuel s2 aRem prev_a2
        else
          layout_breakpoint_go items line_width threshold flagged_demerit fitness_demerit b
            fuel s1 aRem prev_a1

/-- `KnuthPlassLayout::layout_breakpoint`: process legal breakpoint `b`;
the returned flag is `self.active.is_some()` (`false` = no layout possible).
`none` models a panic. -/
def layout_breakpoint (items : List Item) (line_width : XR) (cfg : Config)
    (s : State) (b : Nat) : Option (State × Bool) :=
  match layout_breakpoint_go items line_width cfg.threshold cfg.flagged_demerit
      cfg.fitness_demerit b (s.arena.length + 2) s s.active none with
  | none => none
  | some s1 => some (s1, s1.active.isSome)

/-- The `for b in 0..items.len()` loop of `KnuthPlassLayout::run`:
`rest` is the suffix of items from index `b`.  Returns `none` for a modelled
panic, `some none` for the early `return Vec::new()` when a legal breakpoint
leaves the active list empty, and `some (some s)` otherwise. -/
def run_loop (items : List Item) (line_width : XR) (cfg : Config) :
    List Item → Nat → State → Option (Option State)
  | [], _, s => some (some s)
  | _ :: rest, b, s =>
    match is_legal_breakpoint items b with
    | none => none
    | some (w, st, sh, legal) =>
      match (if legal then layout_breakpoint items line_width cfg s b
             else some (s, true)) with
      | none => none
      | some (s1, ok) =>
        if legal && !ok then some none
        else
          run_loop items line_width cfg rest (b + 1)
            { s1 with
                total_width := s1.total_width + w
                total_stretch := s1.total_stretch + st
                total_shrink := s1.total_shrink + sh }

/-- The demerit-minimizing traversal at the end of `run`: walk the active
list, replacing the current best whenever a node has strictly fewer
demerits.  Fueled (`none` = non-terminating traversal). -/
def choose_min (s : State) : Nat → Option Nat → Nat → Option Nat
  | 0, _, _ => none
  | fuel + 1, a, best =>
    match a with
    | none => some best
    | some i =>
      let best1 :=
        if XR.blt (getN s i).total_demerits (getN s best).total_demerits then i else best
      choose_min s fuel (getN s i).link best1

/-- The `usize` modulus. -/
def U64 : Nat := 2 ^ 64

/-- The looseness selection loop of `run`.  `delta = a.line - k` is a `usize`
subtraction, modelled wrapping modulo `2^64` (its release-mode behavior).
In the source the selected node is bound to `let mut b = a;`, which SHADOWS
the `b` holding the minimum-demerit node: the selection is discarded when
the block ends, so `run` computes this value and does not use it. -/
def loose_go (st : State) (loose k : Nat) :
    Nat → Nat → Nat → Nat → Option Nat
  | 0, _, _, _ => none
  | fuel + 1, i, bestIdx, sdel =>
    let delta := ((getN st i).line + (U64 - k % U64)) % U64
    let chosen :=
      if (loose ≤ delta ∧ delta < sdel) ∨ (sdel < delta ∧ delta ≤ loose) then
        (delta, i)
      else if delta = sdel
          ∧ XR.blt (getN st i).total_demerits (getN st bestIdx).total_demerits then
        (sdel, i)
      else (sdel, bestIdx)
    match (getN st i).link with
    | none => some chosen.2
    | some i2 => loose_go st loose k fuel i2 chosen.2 chosen.1

/-- The backward reconstruction walk of `run`: starting from the chosen node
with `j = node.line`, write `lines[j - 1]` from the metric deltas to the
node's `previous`, then step to `previous` until it is `None`.  Slots the
walk does not reach keep the `Default` line from `vec![Default; b.line]`. -/
def walk_lines (items : List Item) (line_width : XR) (s : State) :
    Nat → Nat → List Line → List Line
  | 0, _, lines => lines
  | j + 1, i, lines =>
    let nd := getN s i
    let prevTotals :=
      match nd.previous with
      | none => (XR.fin 0, XR.fin 0, XR.fin 0)
      | some p => ((getN s p).total_width, (getN s p).total_stretch, (getN s p).total_shrink)
    let entry : Line :=
      ⟨nd.position,
       adjustment_ratio (items.getD nd.position default)
         (nd.total_width - prevTotals.1) (nd.total_stretch - prevTotals.2.1)
         (nd.total_shrink - prevTotals.2.2) line_width⟩
    let lines1 := lines.set j entry
    match nd.previous with
    | none => lines1
    | some p => walk_lines items line_width s j p lines1

/-- `KnuthPlassLayout::run`: the driver.  The arena starts with the default
node (position 0, line 0, fitness Zero, zero totals) as the only active
node.  After the loop the minimum-demerit active node is chosen; the
looseness block computes a selection into a shadowed binding that the source
then discards, so reconstruction always starts from the unbiased choice.
`none` models a panic; `some []` collects both infeasible returns. -/
def run (items : List Item) (line_width : XR) (cfg : Config) : Option (List Line) :=
  let s0 : State := ⟨[default], 0, XR.fin 0, XR.fin 0, XR.fin 0, some 0⟩
  match run_loop items line_width cfg items 0 s0 with
  | none => none
  | some none => some []
  | some (some s) =>
    match s.active with
    | none => some []
    | some hd =>
      match choose_min s (s.arena.length + 1) s.active hd with
      | none => none
      | some bIdx =>
        let _shadowed :=
          if cfg.looseness ≠ 0 then
            loose_go s cfg.looseness (getN s bIdx).line (s.arena.length + 1) hd hd 0
          else none
        some (walk_lines items line_width s (getN s bIdx).line bIdx
          (List.replicate (getN s bIdx).line default))

/-- `KnuthPlass::layout_paragraph` for the `f32`-modelled item sequence. -/
def layout_paragraph (items : List Item) (line_width : XR) (cfg : Config) :
    Option (List Line) :=
  run items line_width cfg

end KnuthPlass

/-! ## Claim C2: the looseness parameter -/

namespace KnuthPlass

/-- The state after the breakpoint loop of `run` (`none` if the run panicked
or returned early). -/
def final_state (items : List Item) (line_width : XR) (cfg : Config) : Option State :=
  match run_loop items line_width cfg items 0
      ⟨[default], 0, XR.fin 0, XR.fin 0, XR.fin 0, some 0⟩ with
  | some (some s) => some s
  | _ => none

/-- The line counts of the nodes on the active list (the surviving terminal
candidates when taken after the loop), in list order. -/
def active_lines (s : State) : Nat → Option Nat → List Nat
  | 0, _ => []
  | _ + 1, none => []
  | fuel + 1, some i => (getN s i).line :: active_lines s fuel (getN s i).link

end KnuthPlass

/-- A two-word paragraph (`"aaa bbb"` with an extra cost-150 penalty break
after the first word) on which the unbiased Knuth-Plass optimum is one line
while a feasible two-line terminal candidate survives. -/
def c2_items : List Item :=
  [Item.box (XR.ofInt 3), Item.penalty (XR.ofInt 0) (XR.ofInt 150) false,
   Item.glue (XR.ofInt 1) (XR.ofInt 1) (XR.ofInt 4),
   Item.box (XR.ofInt 3), Item.glue (XR.ofInt 0) (XR.ofInt 2) (XR.ofInt 0),
   Item.penalty (XR.ofInt 0) XR.ninf false]

/-- The C2 configuration with `looseness = 0`: `flagged_demerit = 100`,
`fitness_demerit = 20000`, `threshold = 1`. -/
def c2_cfg0 : KnuthPlass.Config := ⟨XR.ofInt 100, XR.ofInt 20000, XR.ofInt 1, 0⟩

/-- The C2 configuration with `looseness = +1`. -/
def c2_cfg1 : KnuthPlass.Config := ⟨XR.ofInt 100, XR.ofInt 20000, XR.ofInt 1, 1⟩

/-- C2 (code bug): on `c2_items` with line width 3 the surviving terminal
candidates have line counts 1 and 2 and the unbiased optimum is the one-line
result (`k = 1`), yet `looseness = +1` returns exactly the same one-line
result instead of the feasible two-line one: in the source the looseness
block's `let mut b = a;` shadows the outer `b`, so its selection is
discarded and looseness has no effect on the output. -/
theorem c2_looseness_has_no_effect :
    KnuthPlass.run c2_items (XR.ofInt 3) c2_cfg1
        = some [⟨5, XR.fin (-1)⟩]
    ∧ KnuthPlass.run c2_items (XR.ofInt 3) c2_cfg1
        = KnuthPlass.run c2_items (XR.ofInt 3) c2_cfg0
    ∧ (match KnuthPlass.final_state c2_items (XR.ofInt 3) c2_cfg1 with
       | some s => KnuthPlass.active_lines s (s.arena.length + 1) s.active
       | none => []) = [1, 2] := by
  refine ⟨?_, ?_, ?_⟩ <;> decide!

/-! ## Claim C10: bounds of the two legal-breakpoint tests -/

/-- C10 (confirmed): `KnuthPlassLayout::is_legal_breakpoint` dereferences
`items[b - 1]` for a glue at `b` with no `b > 0` check, so over the indices
`b < items.length` probed by `run` it is total for `b > 0` and total at
`b = 0` only when the first item is not glue — a leading glue panics
(modelled `none`).  By contrast `Item::is_legal_breakpoint` takes the
predecessor as an `Option` and classifies a glue with no predecessor as not
a legal breakpoint. -/
theorem c10_legal_breakpoint_totality :
    (∀ (items : List Item) (b : Nat), 0 < b → b < items.length →
      (KnuthPlass.is_legal_breakpoint items b).isSome)
    ∧ (∀ (items : List Item) (b : Nat), b < items.length →
        (∀ w st sh, items.get? 0 ≠ some (Item.glue w st sh)) →
        (KnuthPlass.is_legal_breakpoint items b).isSome)
    ∧ (∀ w st sh rest, KnuthPlass.is_legal_breakpoint (Item.glue w st sh :: rest) 0 = none)
    ∧ (∀ w st sh, (Item.is_legal_breakpoint (Item.glue w st sh) none).2.2.2 = false) := by
  refine ⟨?_, ?_, ?_, ?_⟩
  · intro items b hb hlen
    rw [KnuthPlass.is_legal_breakpoint]
    match h : items.get? b with
    | some (.box w) => simp
    | some (.glue w st sh) =>
      simp only [if_neg (Nat.pos_iff_ne_zero.mp hb)]
      match h2' : items.get? (b - 1) with
      | some (.box _) => simp
      | some (.glue _ _ _) => simp
      | some (.penalty _ _ _) => simp
      | none => rw [List.get?_eq_none] at h2'; omega
    | some (.penalty w c f) => simp
    | none => rw [List.get?_eq_none] at h; omega
  · intro items b hlen hglue
    rw [KnuthPlass.is_legal_breakpoint]
    match h : items.get? b with
    | some (.box w) => simp
    | some (.glue w st sh) =>
      rcases Nat.eq_zero_or_pos b with hb | hb
      · subst hb; exact absurd h (hglue w st sh)
      · simp only [if_neg (Nat.pos_iff_ne_zero.mp hb)]
        match h2' : items.get? (b - 1) with
        | some (.box _) => simp
        | some (.glue _ _ _) => simp
        | some (.penalty _ _ _) => simp
        | none => rw [List.get?_eq_none] at h2'; omega
    | some (.penalty w c f) => simp
    | none => rw [List.get?_eq_none] at h; omega
  · intro w st sh rest
    rw [KnuthPlass.is_legal_breakpoint]
    simp
  · intro w st sh
    rfl

/-- Witness for C10: on a box-then-glue sequence every probed index is
legal-breakpoint-testable, while the same glue leading a sequence panics. -/
theorem c10_legal_breakpoint_totality_witness :
    (KnuthPlass.is_legal_breakpoint
      [Item.box (XR.ofInt 1), Item.glue (XR.ofInt 1) (XR.ofInt 1) (XR.ofInt 0)] 1).isSome
    ∧ KnuthPlass.is_legal_breakpoint
      [Item.glue (XR.ofInt 1) (XR.ofInt 1) (XR.ofInt 0), Item.box (XR.ofInt 1)] 0 = none :=
  ⟨c10_legal_breakpoint_totality.1
      [Item.box (XR.ofInt 1), Item.glue (XR.ofInt 1) (XR.ofInt 1) (XR.ofInt 0)] 1
      (by decide) (by decide),
   c10_legal_breakpoint_totality.2.2.1 (XR.ofInt 1) (XR.ofInt 1) (XR.ofInt 0)
      [Item.box (XR.ofInt 1)]⟩

/-! ## Claim C6: the demerit formula -/

/-- Whether an item is a flagged penalty. -/
def Item.is_flagged_penalty : Item → Bool
  | .penalty _ _ f => f
  | _ => false

/-- The fitness class of a ratio as described by the specification: four
ordinal bins with boundaries at −0.5, 0.5 and 1.0. -/
def spec_fitness (r : XR) : KnuthPlass.Fitness :=
  if XR.blt r (XR.fin (mkRat (-1) 2)) then .zero
  else if XR.ble r (XR.fin (mkRat 1 2)) then .one
  else if XR.ble r (XR.ofInt 1) then .two
  else .three

/-- The base demerits of a break as enumerated by the specification:
`(1+100·|r|³+p)²` if `p ≥ 0`, `(1+100·|r|³)² − p²` if `p` is finite and
negative, and `(1+100·|r|³)²` if `p = −∞`. -/
def spec_base (r p : XR) : XR :=
  if XR.ble (XR.ofInt 0) p then
    XR.powi (XR.ofInt 1 + XR.ofInt 100 * XR.powi (XR.abs r) 3 + p) 2
  else if !decide (p = XR.ninf) then
    XR.powi (XR.ofInt 1 + XR.ofInt 100 * XR.powi (XR.abs r) 3) 2 - XR.powi p 2
  else
    XR.powi (XR.ofInt 1 + XR.ofInt 100 * XR.powi (XR.abs r) 3) 2

theorem cube_term_nice (r : XR) (hr : r ≠ XR.nan) :
    (∃ q, XR.ofInt 1 + XR.ofInt 100 * XR.powi (XR.abs r) 3 = XR.fin q)
    ∨ XR.ofInt 1 + XR.ofInt 100 * XR.powi (XR.abs r) 3 = XR.inf := by
  cases r with
  | nan => exact absurd rfl hr
  | ninf => right; decide
  | inf => right; decide
  | fin q => exact Or.inl ⟨_, rfl⟩

/-- The base demerits are finite or `+∞` (never NaN or `−∞`) whenever the
ratio and the penalty cost are not NaN. -/
theorem spec_base_nice (r p : XR) (hr : r ≠ XR.nan) (hp : p ≠ XR.nan) :
    (∃ q, spec_base r p = XR.fin q) ∨ spec_base r p = XR.inf := by
  rw [spec_base]
  by_cases h1 : XR.ble (XR.ofInt 0) p = true
  · simp only [h1, if_true]
    rcases cube_term_nice r hr with ⟨cq, hc⟩ | hc <;> rw [hc] <;> cases p
    · exact absurd rfl hp
    · exact absurd (by decide : XR.ble (XR.ofInt 0) XR.ninf = false) (by simp [h1])
    · exact Or.inl ⟨_, rfl⟩
    · exact Or.inr rfl
    · exact absurd rfl hp
    · exact absurd (by decide : XR.ble (XR.ofInt 0) XR.ninf = false) (by simp [h1])
    · exact Or.inr rfl
    · exact Or.inr (by decide)
  · have h1f : XR.ble (XR.ofInt 0) p = false := Bool.not_eq_true _ ▸ h1
    by_cases h2 : p = XR.ninf
    · subst h2
      simp only [h1f, Bool.false_eq_true, if_false]
      rw [if_neg (by decide)]
      rcases cube_term_nice r hr with ⟨cq, hc⟩ | hc <;> rw [hc]
      · exact Or.inl ⟨_, rfl⟩
      · exact Or.inr (by decide)
    · have hpf : ∃ pv, p = XR.fin pv := by
        cases p
        · exact absurd rfl hp
        · exact absurd rfl h2
        · exact ⟨_, rfl⟩
        · exact absurd (by decide : XR.ble (XR.ofInt 0) XR.inf = true) (by simp [h1f])
      rcases hpf with ⟨pv, rfl⟩
      simp only [h1f, Bool.false_eq_true, if_false]
      rw [if_pos (by simp)]
      rcases cube_term_nice r hr with ⟨cq, hc⟩ | hc <;> rw [hc]
      · exact Or.inl ⟨_, rfl⟩
      · exact Or.inr rfl

theorem XR.fin_add_fin (a b : ℚ) : XR.fin a + XR.fin b = XR.fin (qadd a b) := rfl

theorem XR.fin_mul_fin (a b : ℚ) : XR.fin a * XR.fin b = XR.fin (qmul a b) := rfl

theorem XR.inf_add_fin (b : ℚ) : XR.inf + XR.fin b = XR.inf := rfl

theorem Item.penalty_flag_eq (it : Item) :
    it.penalty_flag = if it.is_flagged_penalty then XR.ofInt 1 else XR.ofInt 0 := by
  cases it with
  | box _ => rfl
  | glue _ _ _ => rfl
  | penalty _ _ f => cases f <;> rfl

/-- Rearrangement core of C6: the source's multiplicative flag term and its
conditional fitness addition agree with the specification's additive
decomposition, for any base demerits that are finite or `+∞`. -/
theorem c6_core (B : XR) (hB : (∃ q, B = XR.fin q) ∨ B = XR.inf)
    (av gv dv : ℚ) (fb fa : Bool) (dist : Nat) :
    (let d := B + XR.fin av * (if fb then XR.ofInt 1 else XR.ofInt 0)
        * (if fa then XR.ofInt 1 else XR.ofInt 0)
     let d := if 1 < dist then d + XR.fin gv else d
     d + XR.fin dv)
    = B + XR.fin dv + (if fb && fa then XR.fin av else XR.ofInt 0)
        + (if 1 < dist then XR.fin gv else XR.ofInt 0) := by
  by_cases hd : 1 < dist <;>
    cases fb <;> cases fa <;>
    rcases hB with ⟨bq, rfl⟩ | rfl <;>
    simp only [hd, if_true, if_false, Bool.and_self, Bool.and_true, Bool.true_and,
      Bool.and_false, Bool.false_and, Bool.false_eq_true, eq_self_iff_true,
      ite_true, ite_false, XR.ofInt_eq, XR.fin_mul_fin, XR.fin_add_fin,
      XR.inf_add_fin, XR.fin.injEq, qadd_eq, qmul_eq] <;>
    push_cast <;> ring

/-- C6 (confirmed): `KnuthPlassLayout::demerits_and_fitness` returns total
demerits equal to the specification's base formula for ratio `r` and penalty
cost `p` plus the predecessor's cumulative demerits, plus `flagged_demerit`
exactly when both the breakpoint and the predecessor's break are flagged
penalties, plus `fitness_demerit` exactly when the fitness class of `r`
(bins split at −0.5, 0.5, 1.0) differs from the predecessor's class by more
than one — and it returns that fitness class.  Hypotheses: the ratio and
cost are not NaN and the demerit weights and predecessor demerits are
finite. -/
theorem c6_demerits_and_fitness_formula (items : List Item) (a : KnuthPlass.Node) (b : Nat)
    (r : XR) (av gv dv : ℚ)
    (hr : r ≠ XR.nan) (hp : (items.getD b default).penalty_cost ≠ XR.nan)
    (hD : a.total_demerits = XR.fin dv) :
    KnuthPlass.demerits_and_fitness items (XR.fin av) (XR.fin gv) r a b
      = (spec_base r ((items.getD b default).penalty_cost) + XR.fin dv
          + (if (items.getD b default).is_flagged_penalty
                && (items.getD a.position default).is_flagged_penalty
             then XR.fin av else XR.ofInt 0)
          + (if 1 < (spec_fitness r).distance a.fitness then XR.fin gv else XR.ofInt 0),
         spec_fitness r) := by
  rw [KnuthPlass.demerits_and_fitness]
  rw [Item.penalty_flag_eq, Item.penalty_flag_eq, hD]
  rw [Prod.mk.injEq]
  refine ⟨?_, rfl⟩
  exact c6_core _ (spec_base_nice r _ hr hp) av gv dv _ _ _

/-- Witness for C6: a flagged cost-5 penalty broken twice in a row from a
predecessor with 7 demerits at ratio 1/2. -/
theorem c6_demerits_and_fitness_formula_witness :
    KnuthPlass.demerits_and_fitness [Item.penalty (XR.ofInt 0) (XR.ofInt 5) true]
        (XR.fin 100) (XR.fin 100) (XR.fin (mkRat 1 2))
        ⟨0, 0, KnuthPlass.Fitness.one, XR.fin 0, XR.fin 0, XR.fin 0, XR.fin 7, none, none⟩ 0
      = (spec_base (XR.fin (mkRat 1 2))
            (([Item.penalty (XR.ofInt 0) (XR.ofInt 5) true].getD 0 default).penalty_cost)
          + XR.fin 7
          + (if ([Item.penalty (XR.ofInt 0) (XR.ofInt 5) true].getD 0 default).is_flagged_penalty
                && ([Item.penalty (XR.ofInt 0) (XR.ofInt 5) true].getD
                      (KnuthPlass.Node.position
                        ⟨0, 0, KnuthPlass.Fitness.one, XR.fin 0, XR.fin 0, XR.fin 0,
                         XR.fin 7, none, none⟩) default).is_flagged_penalty
             then XR.fin 100 else XR.ofInt 0)
          + (if 1 < (spec_fitness (XR.fin (mkRat 1 2))).distance
                (KnuthPlass.Node.fitness
                  ⟨0, 0, KnuthPlass.Fitness.one, XR.fin 0, XR.fin 0, XR.fin 0,
                   XR.fin 7, none, none⟩)
             then XR.fin 100 else XR.ofInt 0),
         spec_fitness (XR.fin (mkRat 1 2))) :=
  c6_demerits_and_fitness_formula _ _ 0 _ 100 100 7 (by decide) (by decide) rfl

/-- The last item is a mandatory-break penalty. -/
def ends_mandatory : List Item → Bool
  | [] => false
  | [it] => it.is_mandatory_break
  | _ :: it2 :: rest => ends_mandatory (it2 :: rest)

/-- A well-formed paragraph: non-empty and ending in exactly one
mandatory-break penalty (no earlier item is a mandatory break). -/
def well_formed : List Item → Bool
  | [] => false
  | [it] => it.is_mandatory_break
  | it :: it2 :: rest => !it.is_mandatory_break && well_formed (it2 :: rest)

theorem ends_mandatory_of_well_formed (items : List Item)
    (h : well_formed items = true) : ends_mandatory items = true := by
  induction items with
  | nil => exact h
  | cons it rest ih =>
    cases rest with
    | nil => exact h
    | cons it2 rest2 =>
      rw [well_formed] at h
      rw [ends_mandatory]
      exact ih (Bool.and_elim_right h)

theorem XR.inf_blt (x : XR) : XR.blt XR.inf x = false := by
  cases x <;> rfl

theorem mandatory_is_legal (it : Item) (pred : Option Item)
    (h : it.is_mandatory_break = true) : (it.is_legal_breakpoint pred).2.2.2 = true := by
  cases it with
  | box _ => simp [Item.is_mandatory_break] at h
  | glue _ _ _ => simp [Item.is_mandatory_break] at h
  | penalty w c f =>
    rw [Item.is_mandatory_break, decide_eq_true_iff] at h
    subst h
    rfl

theorem ff_loop_ne_nil (lw : XR) (rest : List Item) :
    ∀ (pred : Option Item) (b : Nat) (s : FirstFit.State) (lastBp : Option FirstFit.Break),
    ends_mandatory rest = true →
    FirstFit.layout_loop lw XR.inf true rest pred b s lastBp ≠ [] := by
  induction rest with
  | nil => intro pred b s lastBp hend; exact absurd hend (by decide)
  | cons it rest ih =>
    intro pred b s lastBp hend
    cases rest with
    | nil =>
      have hleg := mandatory_is_legal it pred hend
      rw [FirstFit.layout_loop]
      simp only [hleg, if_true, Bool.not_true, Bool.and_false, Bool.false_eq_true, if_false,
        XR.inf_blt, ite_true, ite_false]
      rw [FirstFit.layout_loop]
      simp [FirstFit.break_at]
    | cons it2 rest2 =>
      have hend2 : ends_mandatory (it2 :: rest2) = true := hend
      rw [FirstFit.layout_loop]
      by_cases hleg : (it.is_legal_breakpoint pred).2.2.2 = true
      · simp only [hleg, if_true, Bool.not_true, Bool.and_false, Bool.false_eq_true, if_false,
          XR.inf_blt, ite_true, ite_false]
        exact ih _ _ _ _ hend2
      · have hleg2 : (it.is_legal_breakpoint pred).2.2.2 = false := Bool.not_eq_true _ ▸ hleg
        simp only [hleg2, Bool.false_eq_true, if_false, ite_false]
        exact ih _ _ _ _ hend2

theorem ff_loop_empty_imp (lw : XR) (ao : Bool) (items : List Item)
    (pred : Option Item) (b : Nat) (s : FirstFit.State) (lastBp : Option FirstFit.Break)
    (hend : ends_mandatory items = true)
    (h : FirstFit.layout_loop lw XR.inf ao items pred b s lastBp = []) : ao = false := by
  cases ao with
  | false => rfl
  | true => exact absurd h (ff_loop_ne_nil lw items pred b s lastBp hend)

theorem ff_loop_breaks (lw th : XR) (ao : Bool) (rest : List Item) :
    ∀ (pred : Option Item) (b : Nat) (s : FirstFit.State) (lastBp : Option FirstFit.Break)
      (res : List Line),
    ends_mandatory rest = true →
    List.Pairwise (· < ·) (s.lines.map Line.break_at) →
    (∀ l ∈ s.lines, l.break_at < b) →
    (∀ bk, lastBp = some bk → bk.at_ < b ∧ ∀ l ∈ s.lines, l.break_at < bk.at_) →
    FirstFit.layout_loop lw th ao rest pred b s lastBp = res →
    res ≠ [] →
    List.Pairwise (· < ·) (res.map Line.break_at)
      ∧ (res.map Line.break_at).getLast? = some (b + rest.length - 1) := by
  induction rest with
  | nil =>
    intro pred b s lastBp res hend _ _ _ _ _
    exact absurd hend (by decide)
  | cons it rest ih =>
    intro pred b s lastBp res hend hpw hbnd hheld heq hres
    have hstep : ∀ (s1 : FirstFit.State) (wid st sh r2 : XR) (m : Bool),
        List.Pairwise (· < ·) (s1.lines.map Line.break_at) →
        (∀ l ∈ s1.lines, l.break_at < b) →
        FirstFit.layout_loop lw th ao rest (some it) (b + 1)
            ⟨s1.width + wid, s1.stretch + st, s1.shrink + sh, s1.lines⟩
            (some ⟨s1.width, s1.stretch, s1.shrink, r2, m, b⟩) = res →
        List.Pairwise (· < ·) (res.map Line.break_at)
          ∧ (res.map Line.break_at).getLast? = some (b + (it :: rest).length - 1) := by
      intro s1 wid st sh r2 m hpw1 hbnd1 heq1
      cases rest with
      | nil =>
        rw [FirstFit.layout_loop] at heq1
        rw [FirstFit.break_at] at heq1
        subst heq1
        constructor
        · rw [List.map_append, List.pairwise_append]
          refine ⟨hpw1, List.pairwise_singleton _ _, ?_⟩
          intro x hx y hy
          simp only [List.map_cons, List.map_nil, List.mem_singleton] at hy
          subst hy
          rcases List.mem_map.mp hx with ⟨l, hl, rfl⟩
          exact hbnd1 l hl
        · rw [List.map_append]
          simp only [List.map_cons, List.map_nil]
          rw [List.getLast?_concat]
          simp
      | cons it2 rest2 =>
        have hend2 : ends_mandatory (it2 :: rest2) = true := hend
        have h2 := ih (some it) (b + 1)
          ⟨s1.width + wid, s1.stretch + st, s1.shrink + sh, s1.lines⟩
          (some ⟨s1.width, s1.stretch, s1.shrink, r2, m, b⟩) res hend2 hpw1
          (fun l hl => Nat.lt_succ_of_lt (hbnd1 l hl))
          (by
            intro bk hbk
            injection hbk with hbk
            subst hbk
            exact ⟨Nat.lt_succ_self b, hbnd1⟩)
          heq1 hres
        refine ⟨h2.1, ?_⟩
        rw [h2.2]
        congr 1
        simp only [List.length_cons]
        omega
    rw [FirstFit.layout_loop] at heq
    by_cases hleg : (it.is_legal_breakpoint pred).2.2.2 = true
    · simp only [hleg, ite_true, if_true] at heq
      rcases lastBp with _ | bkOld
      · dsimp only at heq
        split at heq
        next h1 => exact absurd heq.symm hres
        next h1 =>
          split at heq <;> split at heq
          · exact absurd heq.symm hres
          · exact hstep s _ _ _ _ _ hpw hbnd heq
          · exact absurd heq.symm hres
          · exact hstep s _ _ _ _ _ hpw hbnd heq
      · have hpwC : List.Pairwise (· < ·)
            ((FirstFit.break_at s bkOld).lines.map Line.break_at) := by
          rw [FirstFit.break_at, List.map_append, List.pairwise_append]
          refine ⟨hpw, List.pairwise_singleton _ _, ?_⟩
          intro x hx y hy
          simp only [List.map_cons, List.map_nil, List.mem_singleton] at hy
          subst hy
          rcases List.mem_map.mp hx with ⟨l, hl, rfl⟩
          exact (hheld bkOld rfl).2 l hl
        have hbndC : ∀ l ∈ (FirstFit.break_at s bkOld).lines, l.break_at < b := by
          rw [FirstFit.break_at]
          intro l hl
          rcases List.mem_append.mp hl with hl | hl
          · exact hbnd l hl
          · simp only [List.mem_singleton] at hl
            subst hl
            exact (hheld bkOld rfl).1
        dsimp only at heq
        split at heq
        next hC =>
          split at heq
          next h1 => exact absurd heq.symm hres
          next h1 =>
            split at heq <;> split at heq
            · exact absurd heq.symm hres
            · exact hstep (FirstFit.break_at s bkOld) _ _ _ _ _ hpwC hbndC heq
            · exact absurd heq.symm hres
            · exact hstep (FirstFit.break_at s bkOld) _ _ _ _ _ hpwC hbndC heq
        next hC =>
          split at heq
          next h1 => exact absurd heq.symm hres
          next h1 =>
            split at heq <;> split at heq
            · exact absurd heq.symm hres
            · exact hstep s _ _ _ _ _ hpw hbnd heq
            · exact absurd heq.symm hres
            · exact hstep s _ _ _ _ _ hpw hbnd heq
    · have hleg2 : (it.is_legal_breakpoint pred).2.2.2 = false := Bool.not_eq_true _ ▸ hleg
      simp only [hleg2, Bool.false_eq_true, if_false, ite_false] at heq
      have hend2 : ends_mandatory rest = true := by
        cases rest with
        | nil =>
          exfalso
          cases it with
          | box w => exact absurd hend (by rw [ends_mandatory]; simp [Item.is_mandatory_break])
          | glue w st2 sh2 => exact absurd hend (by rw [ends_mandatory]; simp [Item.is_mandatory_break])
          | penalty w c f =>
            have : c = XR.ninf := by
              have := hend
              rw [ends_mandatory, Item.is_mandatory_break, decide_eq_true_iff] at this
              exact this
            subst this
            exact absurd (mandatory_is_legal (Item.penalty w XR.ninf f) pred (by rfl))
              (by rw [hleg2]; decide)
        | cons a c => exact hend
      have h2 := ih (some it) (b + 1)
        ⟨s.width + (it.is_legal_breakpoint pred).1,
         s.stretch + (it.is_legal_breakpoint pred).2.1,
         s.shrink + (it.is_legal_breakpoint pred).2.2.1, s.lines⟩ lastBp res hend2 hpw
        (fun l hl => Nat.lt_succ_of_lt (hbnd l hl))
        (fun bk hbk => ⟨Nat.lt_succ_of_lt (hheld bk hbk).1, (hheld bk hbk).2⟩)
        heq hres
      refine ⟨h2.1, ?_⟩
      rw [h2.2]
      congr 1
      simp only [List.length_cons]
      omega

/-! ## Claim C7: greedy failure modes at threshold `+∞` -/

/-- C7 counterexample: a sequence that is not well-formed (a single box, no
terminal mandatory break) makes the greedy layout return the empty sequence
even though `allow_overflow = true`, refuting the claim's unrestricted
"returns the empty sequence only when allow_overflow is false and the held
breakpoint's ratio is < −1". -/
theorem c7_counterexample_single_box :
    FirstFit.layout_paragraph [Item.box (XR.ofInt 1)] (XR.ofInt 3) XR.inf true = [] := by
  decide

/-- C7 as amended (restricted to well-formed input): with `threshold = +∞`,
on every well-formed item sequence the greedy layout returns the empty
sequence only when `allow_overflow` is false (the failure arising at the
`ratio < −1` check, the only early return reachable at infinite threshold),
and with `allow_overflow = true` it never returns the empty sequence. -/
theorem c7_threshold_inf_failure_mode :
    (∀ (items : List Item) (lw : XR) (ao : Bool), well_formed items = true →
      FirstFit.layout_paragraph items lw XR.inf ao = [] → ao = false)
    ∧ (∀ (items : List Item) (lw : XR), well_formed items = true →
      FirstFit.layout_paragraph items lw XR.inf true ≠ []) := by
  constructor
  · intro items lw ao hwf h
    exact ff_loop_empty_imp lw ao items none 0 _ none
      (ends_mandatory_of_well_formed items hwf) h
  · intro items lw hwf
    exact ff_loop_ne_nil lw items none 0 _ none (ends_mandatory_of_well_formed items hwf)

/-- Witness for C7 at the specification's scenario items: with overflow
allowed the layout is non-empty. -/
theorem c7_threshold_inf_failure_mode_witness :
    FirstFit.layout_paragraph c1_items (XR.ofInt 3) XR.inf true ≠ [] :=
  c7_threshold_inf_failure_mode.2 c1_items (XR.ofInt 3) (by decide)

namespace KnuthPlass

/-- Structural invariant of the node arena maintained by the layout: the
initial node sits at index 0 (previous `none`, position 0, line 0); every
other node's `previous` points strictly downward in allocation order, line
numbers count chain length, chain positions strictly increase (except out of
the initial node), links and the active head stay in bounds, and
`first_uniform_line` is 0 (the source never writes it). -/
structure KPInv (s : State) : Prop where
  ne : s.arena ≠ []
  prev0 : (getN s 0).previous = none
  pos0 : (getN s 0).position = 0
  line0 : (getN s 0).line = 0
  prev_lt : ∀ i, i < s.arena.length → ∀ p, (getN s i).previous = some p → p < i
  prev_none : ∀ i, i < s.arena.length → (getN s i).previous = none → i = 0
  line_succ : ∀ i, i < s.arena.length → ∀ p, (getN s i).previous = some p →
      (getN s i).line = (getN s p).line + 1
  pos_mono : ∀ i, i < s.arena.length → ∀ p, (getN s i).previous = some p →
      (getN s p).previous ≠ none → (getN s p).position < (getN s i).position
  link_lt : ∀ i, i < s.arena.length → ∀ j, (getN s i).link = some j → j < s.arena.length
  active_lt : ∀ h, s.active = some h → h < s.arena.length
  ful : s.first_uniform_line = 0

/-- Two states with the same arena skeleton: equal length and equal
non-link node fields (only `link` and the head/totals may differ). -/
def SameNodes (s s1 : State) : Prop :=
  s1.arena.length = s.arena.length
  ∧ ∀ k, (getN s1 k).previous = (getN s k).previous
      ∧ (getN s1 k).position = (getN s k).position
      ∧ (getN s1 k).line = (getN s k).line
      ∧ (getN s1 k).fitness = (getN s k).fitness
      ∧ (getN s1 k).total_width = (getN s k).total_width
      ∧ (getN s1 k).total_stretch = (getN s k).total_stretch
      ∧ (getN s1 k).total_shrink = (getN s k).total_shrink
      ∧ (getN s1 k).total_demerits = (getN s k).total_demerits

theorem SameNodes.refl (s : State) : SameNodes s s :=
  ⟨rfl, fun _ => ⟨rfl, rfl, rfl, rfl, rfl, rfl, rfl, rfl⟩⟩

theorem SameNodes.trans {s s1 s2 : State} (h1 : SameNodes s s1) (h2 : SameNodes s1 s2) :
    SameNodes s s2 := by
  refine ⟨h2.1.trans h1.1, fun k => ?_⟩
  obtain ⟨a1, b1, c1, d1, e1, f1, g1, i1⟩ := h1.2 k
  obtain ⟨a2, b2, c2, d2, e2, f2, g2, i2⟩ := h2.2 k
  exact ⟨a2.trans a1, b2.trans b1, c2.trans c1, d2.trans d1, e2.trans e1,
    f2.trans f1, g2.trans g1, i2.trans i1⟩

theorem list_getD_set_self {α : Type} (l : List α) (i : Nat) (v d : α) (h : i < l.length) :
    (l.set i v).getD i d = v := by
  rw [List.getD_eq_getElem?_getD, List.getElem?_set_self h, Option.getD_some]

theorem list_getD_set_ne {α : Type} (l : List α) (i k : Nat) (v d : α) (h : i ≠ k) :
    (l.set i v).getD k d = l.getD k d := by
  rw [List.getD_eq_getElem?_getD, List.getElem?_set_ne h, ← List.getD_eq_getElem?_getD]

theorem list_getD_append {α : Type} (l l2 : List α) (k : Nat) (d : α) (h : k < l.length) :
    (l ++ l2).getD k d = l.getD k d := by
  rw [List.getD_eq_getElem?_getD, List.getElem?_append_left h, ← List.getD_eq_getElem?_getD]

theorem list_getD_append_len {α : Type} (l : List α) (n d : α) :
    (l ++ [n]).getD l.length d = n := by
  rw [List.getD_eq_getElem?_getD, List.getElem?_append_right (Nat.le_refl _)]
  simp

theorem setLink_length (s : State) (i : Nat) (l : Option Nat) :
    (setLink s i l).arena.length = s.arena.length := by
  rw [setLink]
  exact List.length_set _ _ _

theorem setLink_active (s : State) (i : Nat) (l : Option Nat) :
    (setLink s i l).active = s.active := rfl

theorem setLink_ful (s : State) (i : Nat) (l : Option Nat) :
    (setLink s i l).first_uniform_line = s.first_uniform_line := rfl

theorem getN_setLink (s : State) (i : Nat) (l : Option Nat) (k : Nat) :
    getN (setLink s i l) k
      = if k = i ∧ i < s.arena.length then { getN s i with link := l } else getN s k := by
  by_cases hk : k = i
  · subst hk
    by_cases hlen : k < s.arena.length
    · rw [if_pos ⟨rfl, hlen⟩]
      show (s.arena.set k _).getD k default = _
      exact list_getD_set_self _ _ _ _ hlen
    · rw [if_neg (fun hc => hlen hc.2)]
      show (s.arena.set k _).getD k default = _
      rw [List.set_eq_of_length_le (Nat.le_of_not_lt hlen)]
      rfl
  · rw [if_neg (fun hc => hk hc.1)]
    show (s.arena.set i _).getD k default = _
    exact list_getD_set_ne _ _ _ _ _ (fun hik => hk hik.symm)

theorem getN_setLink_other (s : State) (i : Nat) (l : Option Nat) (k : Nat) (hk : k ≠ i) :
    getN (setLink s i l) k = getN s k := by
  rw [getN_setLink, if_neg (fun hc => hk hc.1)]

theorem setLink_SameNodes (s : State) (i : Nat) (l : Option Nat) :
    SameNodes s (setLink s i l) := by
  refine ⟨setLink_length s i l, fun k => ?_⟩
  rw [getN_setLink]
  by_cases hk : k = i ∧ i < s.arena.length
  · rw [if_pos hk]
    rcases hk with ⟨rfl, _⟩
    exact ⟨rfl, rfl, rfl, rfl, rfl, rfl, rfl, rfl⟩
  · rw [if_neg hk]
    exact ⟨rfl, rfl, rfl, rfl, rfl, rfl, rfl, rfl⟩

theorem new_node_fst (s : State) (n : Node) :
    (new_node s n).1.arena = s.arena ++ [n] := rfl

theorem getN_new_node_lt (s : State) (n : Node) (k : Nat) (h : k < s.arena.length) :
    getN (new_node s n).1 k = getN s k := by
  show (s.arena ++ [n]).getD k default = _
  exact list_getD_append _ _ _ _ h

theorem getN_new_node_len (s : State) (n : Node) :
    getN (new_node s n).1 s.arena.length = n := by
  show (s.arena ++ [n]).getD s.arena.length default = n
  exact list_getD_append_len _ _ _

theorem activeUpd_SameNodes (s : State) (x : Option Nat) :
    SameNodes s { s with active := x } :=
  ⟨rfl, fun _ => ⟨rfl, rfl, rfl, rfl, rfl, rfl, rfl, rfl⟩⟩

/-- Transfer the invariant along a skeleton-preserving mutation, given the
new link/active bounds and `first_uniform_line`. -/
theorem KPInv.of_same (s s1 : State) (h : SameNodes s s1) (hInv : KPInv s)
    (hlink : ∀ i, i < s1.arena.length → ∀ j, (getN s1 i).link = some j →
      j < s1.arena.length)
    (hact : ∀ h2, s1.active = some h2 → h2 < s1.arena.length)
    (hful : s1.first_uniform_line = 0) : KPInv s1 := by
  have hlen := h.1
  refine ⟨?_, ?_, ?_, ?_, ?_, ?_, ?_, ?_, hlink, hact, hful⟩
  · intro hc
    have : s1.arena.length = 0 := by rw [hc]; rfl
    exact hInv.ne (List.length_eq_zero.mp (by omega : s.arena.length = 0))
  · rw [(h.2 0).1, hInv.prev0]
  · rw [(h.2 0).2.1, hInv.pos0]
  · rw [(h.2 0).2.2.1, hInv.line0]
  · intro i hi p hp
    rw [(h.2 i).1] at hp
    exact hInv.prev_lt i (by omega) p hp
  · intro i hi hp
    rw [(h.2 i).1] at hp
    exact hInv.prev_none i (by omega) hp
  · intro i hi p hp
    rw [(h.2 i).1] at hp
    rw [(h.2 i).2.2.1, (h.2 p).2.2.1]
    exact hInv.line_succ i (by omega) p hp
  · intro i hi p hp hpn
    rw [(h.2 i).1] at hp
    rw [(h.2 p).1] at hpn
    rw [(h.2 p).2.1, (h.2 i).2.1]
    exact hInv.pos_mono i (by omega) p hp hpn

theorem deactivate_SameNodes (s : State) (i : Nat) :
    SameNodes s (deactivate_node s i) := by
  rw [deactivate_node]
  cases hp : (getN s i).previous with
  | none =>
    simp only
    split
    · exact activeUpd_SameNodes s _
    · exact SameNodes.refl s
  | some p =>
    simp only
    split
    · exact (setLink_SameNodes s p _).trans (activeUpd_SameNodes _ _)
    · exact setLink_SameNodes s p _

theorem deactivate_link_cases (s : State) (i k : Nat) :
    (getN (deactivate_node s i) k).link = (getN s k).link
    ∨ (getN (deactivate_node s i) k).link = (getN s i).link := by
  rw [deactivate_node]
  cases hp : (getN s i).previous with
  | none =>
    simp only
    split
    · exact Or.inl rfl
    · exact Or.inl rfl
  | some p =>
    simp only
    have harena : ∀ x, getN { setLink s p (getN s i).link with active := x } k
        = getN (setLink s p (getN s i).link) k := fun _ => rfl
    by_cases hkp : k = p ∧ p < s.arena.length
    · split
      · rw [harena, getN_setLink, if_pos hkp]
        exact Or.inr rfl
      · rw [getN_setLink, if_pos hkp]
        exact Or.inr rfl
    · split
      · rw [harena, getN_setLink, if_neg hkp]
        exact Or.inl rfl
      · rw [getN_setLink, if_neg hkp]
        exact Or.inl rfl

theorem deactivate_active_cases (s : State) (i : Nat) :
    (deactivate_node s i).active = s.active
    ∨ (deactivate_node s i).active = (getN s i).link := by
  rw [deactivate_node]
  cases hp : (getN s i).previous with
  | none =>
    simp only
    split
    · exact Or.inr rfl
    · exact Or.inl rfl
  | some p =>
    simp only
    split
    · right
      show (getN (setLink s p (getN s i).link) i).link = _
      by_cases hip : i = p ∧ p < s.arena.length
      · rw [getN_setLink, if_pos hip]
      · rw [getN_setLink, if_neg hip]
    · exact Or.inl rfl

theorem deactivate_ful (s : State) (i : Nat) :
    (deactivate_node s i).first_uniform_line = s.first_uniform_line := by
  rw [deactivate_node]
  cases hp : (getN s i).previous <;> simp only <;> split <;> rfl

theorem deactivate_KPInv (s : State) (i : Nat) (hInv : KPInv s) (hi : i < s.arena.length) :
    KPInv (deactivate_node s i) := by
  have hsame := deactivate_SameNodes s i
  refine KPInv.of_same s _ hsame hInv ?_ ?_ ?_
  · intro k hk j hj
    rw [hsame.1] at hk
    rcases deactivate_link_cases s i k with hc | hc <;> rw [hc] at hj
    · rw [hsame.1]
      exact hInv.link_lt k hk j hj
    · rw [hsame.1]
      exact hInv.link_lt i hi j hj
  · intro h2 hh
    rw [hsame.1]
    rcases deactivate_active_cases s i with hc | hc <;> rw [hc] at hh
    · exact hInv.active_lt h2 hh
    · exact hInv.link_lt i hi h2 hh
  · rw [deactivate_ful]
    exact hInv.ful

theorem deactivate_active_head (s : State) (i : Nat) (hInv : KPInv s)
    (hact : s.active = some i) (hi : i < s.arena.length) :
    (deactivate_node s i).active = (getN s i).link := by
  rw [deactivate_node]
  cases hp : (getN s i).previous with
  | none =>
    simp only
    rw [if_pos hact]
  | some p =>
    simp only
    have hpi : p < i := hInv.prev_lt i hi p hp
    rw [if_pos (show (setLink s p (getN s i).link).active = some i from hact)]
    show (getN (setLink s p (getN s i).link) i).link = _
    rw [getN_setLink_other _ _ _ _ (by omega)]

theorem scan_active_spec (items : List Item) (lw th fd gd : XR) (b : Nat) :
    ∀ (fuel : Nat) (s : State) (i : Nat) (prev_a : Option Nat) (cb : ClassBest)
      (out : State × Option Nat × Option Nat × ClassBest),
    KPInv s → i < s.arena.length →
    (∀ p, prev_a = some p → p < s.arena.length) →
    (∀ c ca, cb.class_a c = some ca → ca < s.arena.length) →
    scan_active items lw th fd gd b fuel s i prev_a cb = some out →
    KPInv out.1 ∧ SameNodes s out.1 ∧ out.2.1 = none
      ∧ (∀ p, out.2.2.1 = some p → p < s.arena.length)
      ∧ (∀ c ca, out.2.2.2.class_a c = some ca → ca < s.arena.length)
      ∧ ((items.getD b default).is_mandatory_break = true → s.active = some i →
          out.1.active = none ∧ out.2.2.1 = prev_a) := by
  intro fuel
  induction fuel with
  | zero =>
    intro s i prev_a cb out _ _ _ _ heq
    rw [scan_active] at heq
    exact absurd heq (by simp)
  | succ fuel ih =>
    intro s i prev_a cb out hInv hi hprev hcb heq
    rw [scan_active] at heq
    have hcore : ∀ (s1 : State) (prev1 : Option Nat) (cb1 : ClassBest),
        KPInv s1 → SameNodes s s1 →
        (∀ p, prev1 = some p → p < s.arena.length) →
        (∀ c ca, cb1.class_a c = some ca → ca < s.arena.length) →
        ((items.getD b default).is_mandatory_break = true → s.active = some i →
          s1.active = (getN s i).link ∧ prev1 = prev_a) →
        (match (getN s i).link with
         | none => some (s1, none, prev1, cb1)
         | some i2 =>
           if (layout_adjustment_ratio items lw s (getN s i) b).1 ≤ (getN s1 i2).line
              ∧ (layout_adjustment_ratio items lw s (getN s i) b).1 < s1.first_uniform_line then
             some (s1, some i2, prev1, cb1)
           else scan_active items lw th fd gd b fuel s1 i2 prev1 cb1) = some out →
        KPInv out.1 ∧ SameNodes s out.1 ∧ out.2.1 = none
          ∧ (∀ p, out.2.2.1 = some p → p < s.arena.length)
          ∧ (∀ c ca, out.2.2.2.class_a c = some ca → ca < s.arena.length)
          ∧ ((items.getD b default).is_mandatory_break = true → s.active = some i →
              out.1.active = none ∧ out.2.2.1 = prev_a) := by
      intro s1 prev1 cb1 hInv1 hsame1 hprev1 hcb1 hmandS heq2
      rcases hnext : (getN s i).link with _ | i2
      · simp only [hnext, Option.some.injEq] at heq2
        subst heq2
        refine ⟨hInv1, hsame1, rfl, hprev1, hcb1, ?_⟩
        intro hmand hact
        obtain ⟨ha, hb⟩ := hmandS hmand hact
        rw [ha, hnext]
        exact ⟨rfl, hb⟩
      · simp only [hnext] at heq2
        rw [if_neg (fun hcond => by
          have := hcond.2
          rw [hInv1.ful] at this
          omega)] at heq2
        have hi2 : i2 < s1.arena.length := by
          rw [hsame1.1]
          exact hInv.link_lt i hi i2 hnext
        have hres := ih s1 i2 prev1 cb1 out hInv1 hi2
          (fun p hp => by rw [hsame1.1]; exact hprev1 p hp)
          (fun c ca hc => by rw [hsame1.1]; exact hcb1 c ca hc) heq2
        refine ⟨hres.1, hsame1.trans hres.2.1, hres.2.2.1, ?_, ?_, ?_⟩
        · intro p hp
          exact hsame1.1 ▸ hres.2.2.2.1 p hp
        · intro c ca hc
          exact hsame1.1 ▸ hres.2.2.2.2.1 c ca hc
        · intro hmand hact
          obtain ⟨ha, hb⟩ := hmandS hmand hact
          have hact1 : s1.active = some i2 := by rw [ha, hnext]
          have hfin := hres.2.2.2.2.2 hmand hact1
          exact ⟨hfin.1, hfin.2.trans hb⟩
    refine hcore _ _ _ ?_ ?_ ?_ ?_ ?_ heq
    · by_cases hC : (XR.blt (layout_adjustment_ratio items lw s (getN s i) b).2 (XR.ofInt (-1))
          || (items.getD b default).is_mandatory_break) = true
      · simp only [hC, if_true]
        exact deactivate_KPInv s i hInv hi
      · simp only [hC, Bool.false_eq_true, if_false]
        exact hInv
    · by_cases hC : (XR.blt (layout_adjustment_ratio items lw s (getN s i) b).2 (XR.ofInt (-1))
          || (items.getD b default).is_mandatory_break) = true
      · simp only [hC, if_true]
        exact deactivate_SameNodes s i
      · simp only [hC, Bool.false_eq_true, if_false]
        exact SameNodes.refl s
    · by_cases hC : (XR.blt (layout_adjustment_ratio items lw s (getN s i) b).2 (XR.ofInt (-1))
          || (items.getD b default).is_mandatory_break) = true
      · simp only [hC, if_true]
        exact hprev
      · simp only [hC, Bool.false_eq_true, if_false]
        intro p hp
        injection hp with hp
        omega
    · by_cases hF : (XR.ble (XR.ofInt (-1)) (layout_adjustment_ratio items lw s (getN s i) b).2
          && XR.ble (layout_adjustment_ratio items lw s (getN s i) b).2 th) = true
      · simp only [hF, if_true]
        by_cases hUp : XR.blt
            (demerits_and_fitness items fd gd (layout_adjustment_ratio items lw s (getN s i) b).2
              (getN s i) b).1
            ((ClassBest.class_demerits cb)
              (demerits_and_fitness items fd gd (layout_adjustment_ratio items lw s (getN s i) b).2
                (getN s i) b).2) = true
        · simp only [hUp, if_true]
          intro c ca hc
          by_cases hcf : c = (demerits_and_fitness items fd gd
              (layout_adjustment_ratio items lw s (getN s i) b).2 (getN s i) b).2
          · simp only [hcf, if_true] at hc
            injection hc with hc
            omega
          · simp only [hcf, if_false] at hc
            exact hcb c ca hc
        · simp only [hUp, Bool.false_eq_true, if_false]
          exact hcb
      · simp only [hF, Bool.false_eq_true, if_false]
        exact hcb
    · intro hmand hact
      have hC : (XR.blt (layout_adjustment_ratio items lw s (getN s i) b).2 (XR.ofInt (-1))
          || (items.getD b default).is_mandatory_break) = true := by
        rw [hmand, Bool.or_true]
      simp only [hC, if_true]
      exact ⟨deactivate_active_head s i hInv hact hi, trivial⟩


/-- All nodes except the initial one were created at breakpoints before `b`. -/
def PosLt (b : Nat) (s : State) : Prop :=
  ∀ k, k < s.arena.length → k = 0 ∨ (getN s k).position < b

/-- All nodes except the initial one were created at breakpoints up to `b`. -/
def PosLe (b : Nat) (s : State) : Prop :=
  ∀ k, k < s.arena.length → k = 0 ∨ (getN s k).position ≤ b

/-- After a mandatory breakpoint `b` is processed, the nodes from index `mS`
on form a link-closed segment of position-`b` nodes containing the active
head (if any); `prev_a` also points into the segment (if set). -/
def SegP (b mS : Nat) (s : State) (prev_a : Option Nat) : Prop :=
  (∀ k, mS ≤ k → k < s.arena.length → (getN s k).position = b
      ∧ ((getN s k).link = none ∨ ∃ j, (getN s k).link = some j ∧ mS ≤ j ∧ j < s.arena.length))
  ∧ (s.active = none ∨ ∃ h, s.active = some h ∧ mS ≤ h ∧ h < s.arena.length)
  ∧ (prev_a = none ∨ ∃ p, prev_a = some p ∧ mS ≤ p ∧ p < s.arena.length)

/-- The state mutation performed by one accepted candidate in `create_nodes`:
allocate the node and splice it in after `prev_a` (or at the head). -/
def allocStep (s : State) (n : Node) (p : Option Nat) : State :=
  match p with
  | none => { (new_node s n).1 with active := some (new_node s n).2 }
  | some p => setLink (new_node s n).1 p (some (new_node s n).2)

theorem create_nodes_cons_eq (b : Nat) (totals : XR × XR × XR) (cutoff : XR)
    (cb : ClassBest) (aRem : Option Nat) (c : Fitness) (cs : List Fitness) (s : State)
    (prev_a : Option Nat) (ca : Nat)
    (hcut : XR.ble (cb.class_demerits c) cutoff = true) (hca : cb.class_a c = some ca) :
    create_nodes b totals cutoff cb aRem (c :: cs) s prev_a
      = create_nodes b totals cutoff cb aRem cs
          (allocStep s
            ⟨b, (getN s ca).line + 1, c, totals.1, totals.2.1, totals.2.2,
             cb.class_demerits c, some ca, aRem⟩ prev_a)
          (some s.arena.length) := by
  rw [create_nodes, if_pos hcut, hca]
  cases prev_a <;> rfl

theorem allocStep_length (s : State) (n : Node) (p : Option Nat) :
    (allocStep s n p).arena.length = s.arena.length + 1 := by
  cases p with
  | none =>
    show ((new_node s n).1.arena).length = _
    rw [new_node_fst]
    simp
  | some q =>
    show (setLink (new_node s n).1 q _).arena.length = _
    rw [setLink_length]
    show ((new_node s n).1.arena).length = _
    rw [new_node_fst]
    simp

theorem getN_allocStep_lt (s : State) (n : Node) (p : Option Nat) (k : Nat)
    (hk : k < s.arena.length) :
    (getN (allocStep s n p) k).previous = (getN s k).previous
      ∧ (getN (allocStep s n p) k).position = (getN s k).position
      ∧ (getN (allocStep s n p) k).line = (getN s k).line
      ∧ (getN (allocStep s n p) k).link
          = (if p = some k then some s.arena.length else (getN s k).link) := by
  cases p with
  | none =>
    have h1 : getN (allocStep s n none) k = getN s k := by
      show getN (new_node s n).1 k = _
      exact getN_new_node_lt s n k hk
    rw [h1]
    exact ⟨rfl, rfl, rfl, by simp⟩
  | some q =>
    have h1 : getN (allocStep s n (some q)) k
        = getN (setLink (new_node s n).1 q (some s.arena.length)) k := rfl
    rw [h1, getN_setLink]
    by_cases hkq : k = q
    · subst hkq
      have hlt : k < (new_node s n).1.arena.length := by
        rw [new_node_fst]
        simp only [List.length_append, List.length_cons, List.length_nil]
        omega
      rw [if_pos ⟨rfl, hlt⟩]
      have h2 : getN (new_node s n).1 k = getN s k := getN_new_node_lt s n k hk
      rw [h2]
      exact ⟨rfl, rfl, rfl, by simp⟩
    · rw [if_neg (fun hc => hkq hc.1)]
      have h2 : getN (new_node s n).1 k = getN s k := getN_new_node_lt s n k hk
      rw [h2]
      refine ⟨rfl, rfl, rfl, ?_⟩
      rw [if_neg (fun hc => hkq (Option.some.injEq _ _ ▸ hc).symm)]

theorem getN_allocStep_len (s : State) (n : Node) (p : Option Nat)
    (hp : ∀ q, p = some q → q < s.arena.length) :
    getN (allocStep s n p) s.arena.length = n := by
  cases p with
  | none => exact getN_new_node_len s n
  | some q =>
    have hq : q < s.arena.length := hp q rfl
    have h1 : getN (allocStep s n (some q)) s.arena.length
        = getN (setLink (new_node s n).1 q (some s.arena.length)) s.arena.length := rfl
    rw [h1, getN_setLink_other _ _ _ _ (by omega)]
    exact getN_new_node_len s n

theorem allocStep_active_none (s : State) (n : Node) :
    (allocStep s n none).active = some s.arena.length := rfl

theorem allocStep_active_some (s : State) (n : Node) (q : Nat) :
    (allocStep s n (some q)).active = s.active := rfl

theorem allocStep_ful (s : State) (n : Node) (p : Option Nat) :
    (allocStep s n p).first_uniform_line = s.first_uniform_line := by
  cases p <;> rfl

theorem allocStep_KPInv (s : State) (n : Node) (p : Option Nat) (hInv : KPInv s)
    (hp : ∀ q, p = some q → q < s.arena.length) (ca : Nat)
    (hprevn : n.previous = some ca) (hcal : ca < s.arena.length)
    (hline : n.line = (getN s ca).line + 1)
    (hpos : (getN s ca).previous ≠ none → (getN s ca).position < n.position)
    (hlinkn : n.link = none) :
    KPInv (allocStep s n p) := by
  have hlen := allocStep_length s n p
  have hne0 : 0 < s.arena.length := by
    rcases Nat.eq_zero_or_pos s.arena.length with h0 | h0
    · exact absurd (List.length_eq_zero.mp h0) hInv.ne
    · exact h0
  have hflds := fun k hk => getN_allocStep_lt s n p k hk
  have hnewN := getN_allocStep_len s n p hp
  refine ⟨?_, ?_, ?_, ?_, ?_, ?_, ?_, ?_, ?_, ?_, ?_⟩
  · intro hc
    have : (allocStep s n p).arena.length = 0 := by rw [hc]; rfl
    omega
  · rw [(hflds 0 hne0).1, hInv.prev0]
  · rw [(hflds 0 hne0).2.1, hInv.pos0]
  · rw [(hflds 0 hne0).2.2.1, hInv.line0]
  · intro i hi q hq
    by_cases hilt : i < s.arena.length
    · rw [(hflds i hilt).1] at hq
      exact hInv.prev_lt i hilt q hq
    · have hieq : i = s.arena.length := by omega
      subst hieq
      rw [hnewN, hprevn] at hq
      cases hq
      omega
  · intro i hi hq
    by_cases hilt : i < s.arena.length
    · rw [(hflds i hilt).1] at hq
      exact hInv.prev_none i hilt hq
    · have hieq : i = s.arena.length := by omega
      subst hieq
      rw [hnewN, hprevn] at hq
      cases hq
  · intro i hi q hq
    by_cases hilt : i < s.arena.length
    · rw [(hflds i hilt).1] at hq
      have hqlt : q < s.arena.length := by
        have := hInv.prev_lt i hilt q hq
        omega
      rw [(hflds i hilt).2.2.1, (hflds q hqlt).2.2.1]
      exact hInv.line_succ i hilt q hq
    · have hieq : i = s.arena.length := by omega
      subst hieq
      rw [hnewN, hprevn] at hq
      cases hq
      rw [hnewN, hline, (hflds ca hcal).2.2.1]
  · intro i hi q hq hqn
    by_cases hilt : i < s.arena.length
    · rw [(hflds i hilt).1] at hq
      have hqlt : q < s.arena.length := by
        have := hInv.prev_lt i hilt q hq
        omega
      rw [(hflds q hqlt).1] at hqn
      rw [(hflds i hilt).2.1, (hflds q hqlt).2.1]
      exact hInv.pos_mono i hilt q hq hqn
    · have hieq : i = s.arena.length := by omega
      subst hieq
      rw [hnewN, hprevn] at hq
      cases hq
      rw [(hflds ca hcal).1] at hqn
      rw [hnewN, (hflds ca hcal).2.1]
      exact hpos hqn
  · intro i hi j hj
    by_cases hilt : i < s.arena.length
    · rw [(hflds i hilt).2.2.2] at hj
      by_cases hpi : p = some i
      · rw [if_pos hpi] at hj
        cases hj
        omega
      · rw [if_neg hpi] at hj
        have := hInv.link_lt i hilt j hj
        omega
    · have hieq : i = s.arena.length := by omega
      subst hieq
      rw [hnewN, hlinkn] at hj
      cases hj
  · intro h2 hh
    cases p with
    | none =>
      rw [allocStep_active_none] at hh
      cases hh
      omega
    | some q =>
      rw [allocStep_active_some] at hh
      have := hInv.active_lt h2 hh
      omega
  · rw [allocStep_ful]
    exact hInv.ful

theorem create_nodes_spec (b : Nat) (totals : XR × XR × XR) (cutoff : XR) (cb : ClassBest)
    (m0 : Nat) :
    ∀ (cs : List Fitness) (s : State) (prev_a : Option Nat) (out : State × Option Nat)
      (mS : Nat),
    KPInv s →
    m0 ≤ s.arena.length →
    (∀ k, k < m0 → k = 0 ∨ (getN s k).position < b) →
    PosLe b s →
    (∀ c ca, cb.class_a c = some ca → ca < m0) →
    (∀ p, prev_a = some p → p < s.arena.length) →
    create_nodes b totals cutoff cb none cs s prev_a = some out →
    KPInv out.1 ∧ s.arena.length ≤ out.1.arena.length ∧ PosLe b out.1
      ∧ (∀ k, k < m0 → k = 0 ∨ (getN out.1 k).position < b)
      ∧ (∀ p, out.2 = some p → p < out.1.arena.length)
      ∧ (mS ≤ s.arena.length → SegP b mS s prev_a → SegP b mS out.1 out.2) := by
  intro cs
  induction cs with
  | nil =>
    intro s prev_a out mS hInv hm0 hOldPos hPosLe hcb hprev heq
    rw [create_nodes] at heq
    simp only [Option.some.injEq] at heq
    subst heq
    exact ⟨hInv, Nat.le_refl _, hPosLe, hOldPos, hprev, fun _ h => h⟩
  | cons c cs ihc =>
    intro s prev_a out mS hInv hm0 hOldPos hPosLe hcb hprev heq
    by_cases hcut : XR.ble (cb.class_demerits c) cutoff = true
    · rcases hca : cb.class_a c with _ | ca
      · rw [create_nodes, if_pos hcut, hca] at heq
        exact absurd heq (by simp)
      · rw [create_nodes_cons_eq b totals cutoff cb none c cs s prev_a ca hcut hca] at heq
        have hcam : ca < m0 := hcb c ca hca
        have hcal : ca < s.arena.length := by omega
        set n : Node :=
          ⟨b, (getN s ca).line + 1, c, totals.1, totals.2.1, totals.2.2,
           cb.class_demerits c, some ca, none⟩ with hn
        set s2 : State := allocStep s n prev_a with hs2
        have hlen2 : s2.arena.length = s.arena.length + 1 := allocStep_length s n prev_a
        have hflds := fun k hk => getN_allocStep_lt s n prev_a k hk
        have hnewN : getN s2 s.arena.length = n := getN_allocStep_len s n prev_a hprev
        -- invariants for the recursive call
        have hInv2 : KPInv s2 := by
          refine allocStep_KPInv s n prev_a hInv hprev ca rfl hcal rfl ?_ rfl
          intro hpn
          have hca0 : ca ≠ 0 := by
            intro hc
            subst hc
            exact hpn hInv.prev0
          rcases hOldPos ca hcam with h0 | h0
          · exact absurd h0 hca0
          · exact h0
        have hOldPos2 : ∀ k, k < m0 → k = 0 ∨ (getN s2 k).position < b := by
          intro k hk
          rcases hOldPos k hk with h0 | h0
          · exact Or.inl h0
          · right
            rw [(hflds k (by omega)).2.1]
            exact h0
        have hPosLe2 : PosLe b s2 := by
          intro k hk
          rw [hlen2] at hk
          by_cases hklt : k < s.arena.length
          · rcases hPosLe k hklt with h0 | h0
            · exact Or.inl h0
            · right
              rw [(hflds k hklt).2.1]
              exact h0
          · right
            have hke : k = s.arena.length := by omega
            subst hke
            rw [hnewN]
        have hprev2 : ∀ p, (some s.arena.length : Option Nat) = some p →
            p < s2.arena.length := by
          intro p hp
          cases hp
          omega
        obtain ⟨hI, hle, hPle, hOld, hpr, hSeg⟩ :=
          ihc s2 (some s.arena.length) out mS hInv2 (by omega) hOldPos2 hPosLe2 hcb
            hprev2 heq
        refine ⟨hI, by omega, hPle, hOld, hpr, ?_⟩
        intro hmS hSegIn
        refine hSeg (by omega) ?_
        obtain ⟨hSN, hSA, hSP⟩ := hSegIn
        refine ⟨?_, ?_, ?_⟩
        · intro k hk1 hk2
          rw [hlen2] at hk2
          by_cases hklt : k < s.arena.length
          · obtain ⟨hposk, hlinkk⟩ := hSN k hk1 hklt
            refine ⟨by rw [(hflds k hklt).2.1]; exact hposk, ?_⟩
            rw [(hflds k hklt).2.2.2]
            by_cases hpk : prev_a = some k
            · rw [if_pos hpk]
              exact Or.inr ⟨s.arena.length, rfl, hmS, by omega⟩
            · rw [if_neg hpk]
              rcases hlinkk with h0 | ⟨j, hj1, hj2, hj3⟩
              · exact Or.inl h0
              · exact Or.inr ⟨j, hj1, hj2, by omega⟩
          · have hke : k = s.arena.length := by omega
            subst hke
            rw [hnewN]
            exact ⟨rfl, Or.inl rfl⟩
        · cases prev_a with
          | none =>
            have hact2 : s2.active = some s.arena.length := allocStep_active_none s n
            rw [hact2]
            exact Or.inr ⟨s.arena.length, rfl, hmS, by omega⟩
          | some q =>
            have hact2 : s2.active = s.active := allocStep_active_some s n q
            rw [hact2]
            rcases hSA with h0 | ⟨h2, hh1, hh2, hh3⟩
            · exact Or.inl h0
            · exact Or.inr ⟨h2, hh1, hh2, by omega⟩
        · exact Or.inr ⟨s.arena.length, rfl, hmS, by omega⟩
    · rw [create_nodes] at heq
      rw [if_neg hcut] at heq
      exact ihc s prev_a out mS hInv hm0 hOldPos hPosLe hcb hprev heq

theorem layout_breakpoint_go_none (items : List Item) (lw th fd gd : XR) (b fuel : Nat)
    (s : State) (prev_a : Option Nat) :
    layout_breakpoint_go items lw th fd gd b (fuel + 1) s none prev_a = some s := rfl

theorem layout_breakpoint_go_some (items : List Item) (lw th fd gd : XR) (b fuel : Nat)
    (s : State) (i : Nat) (prev_a : Option Nat) :
    layout_breakpoint_go items lw th fd gd b (fuel + 1) s (some i) prev_a
      = match scan_active items lw th fd gd b (s.arena.length + 1) s i prev_a
            ClassBest.init with
        | none => none
        | some (s1, aRem, prev_a1, cb) =>
          if XR.blt cb.min_demerits XR.inf then
            match create_nodes b (total_after items s1 b) (cb.min_demerits + gd) cb aRem
                [Fitness.zero, Fitness.one, Fitness.two, Fitness.three] s1 prev_a1 with
            | none => none
            | some (s2, prev_a2) =>
              layout_breakpoint_go items lw th fd gd b fuel s2 aRem prev_a2
          else layout_breakpoint_go items lw th fd gd b fuel s1 aRem prev_a1 := rfl

theorem layout_breakpoint_spec (items : List Item) (lw : XR) (cfg : Config)
    (s : State) (b : Nat) (out : State) (ok : Bool)
    (hInv : KPInv s) (hPos : PosLt b s)
    (heq : layout_breakpoint items lw cfg s b = some (out, ok)) :
    KPInv out ∧ PosLe b out ∧ s.arena.length ≤ out.arena.length
      ∧ ok = out.active.isSome
      ∧ ((items.getD b default).is_mandatory_break = true →
          ∃ m, SegP b m out none) := by
  rw [layout_breakpoint,
    show s.arena.length + 2 = s.arena.length + 1 + 1 from rfl] at heq
  rcases hact : s.active with _ | i
  · rw [hact, layout_breakpoint_go_none] at heq
    simp only [Option.some.injEq, Prod.mk.injEq] at heq
    obtain ⟨hout, hok⟩ := heq
    subst hout
    refine ⟨hInv, fun k hk => ?_, Nat.le_refl _, hok.symm, fun _ => ?_⟩
    · rcases hPos k hk with h0 | h0
      · exact Or.inl h0
      · exact Or.inr (by omega)
    · exact ⟨s.arena.length, fun k hk1 hk2 => absurd hk2 (by omega),
        Or.inl hact, Or.inl rfl⟩
  · have hi : i < s.arena.length := hInv.active_lt i hact
    rw [hact, layout_breakpoint_go_some] at heq
    rcases hscan : scan_active items lw cfg.threshold cfg.flagged_demerit
        cfg.fitness_demerit b (s.arena.length + 1) s i none ClassBest.init
      with _ | ⟨s1, aRem, prev_a1, cb⟩
    · rw [hscan] at heq
      exact absurd heq (by simp)
    · obtain ⟨hI1, hSame1, haRem, hpr1, hcb1, hmand1⟩ :=
        scan_active_spec items lw cfg.threshold cfg.flagged_demerit cfg.fitness_demerit b
          (s.arena.length + 1) s i none ClassBest.init (s1, aRem, prev_a1, cb)
          hInv hi (fun p hp => by cases hp) (fun c ca hc => by
            exact absurd hc (by simp [ClassBest.init]))
          hscan
      simp only at haRem hpr1 hcb1 hmand1
      subst haRem
      simp only [hscan] at heq
      have hlen1 : s1.arena.length = s.arena.length := hSame1.1
      by_cases hfeas : XR.blt cb.min_demerits XR.inf = true
      · simp only [hfeas, if_true] at heq
        rcases hcr : create_nodes b (total_after items s1 b)
            (cb.min_demerits + cfg.fitness_demerit) cb none
            [Fitness.zero, Fitness.one, Fitness.two, Fitness.three] s1 prev_a1
          with _ | ⟨s2, prev_a2⟩
        · rw [hcr] at heq
          exact absurd heq (by simp)
        · obtain ⟨hI2, hle2, hPle2, hOld2, hpr2, hSeg2⟩ :=
            create_nodes_spec b (total_after items s1 b)
              (cb.min_demerits + cfg.fitness_demerit) cb s.arena.length
              [Fitness.zero, Fitness.one, Fitness.two, Fitness.three] s1 prev_a1
              (s2, prev_a2) s1.arena.length hI1 (by omega)
              (fun k hk => by
                rcases hPos k (by omega) with h0 | h0
                · exact Or.inl h0
                · exact Or.inr (by rw [(hSame1.2 k).2.1]; exact h0))
              (fun k hk => by
                rcases hPos k (by omega) with h0 | h0
                · exact Or.inl h0
                · exact Or.inr (by rw [(hSame1.2 k).2.1]; omega))
              hcb1 (fun p hp => by have := hpr1 p hp; omega) hcr
          simp only at hI2 hle2 hPle2 hpr2 hSeg2
          simp only [hcr] at heq
          rw [layout_breakpoint_go_none] at heq
          simp only [Option.some.injEq, Prod.mk.injEq] at heq
          obtain ⟨hout, hok⟩ := heq
          subst hout
          refine ⟨hI2, hPle2, by omega, hok.symm, fun hmand => ?_⟩
          obtain ⟨hact1, hpa1⟩ := hmand1 hmand hact
          subst hpa1
          have hsegIn : SegP b s1.arena.length s1 none :=
            ⟨fun k hk1 hk2 => absurd hk2 (by omega), Or.inl hact1, Or.inl rfl⟩
          obtain ⟨hN, hA, _⟩ := hSeg2 (Nat.le_refl _) hsegIn
          exact ⟨s1.arena.length, hN, hA, Or.inl rfl⟩
      · simp only [hfeas, Bool.false_eq_true, if_false] at heq
        rw [layout_breakpoint_go_none] at heq
        simp only [Option.some.injEq, Prod.mk.injEq] at heq
        obtain ⟨hout, hok⟩ := heq
        subst hout
        refine ⟨hI1, fun k hk => ?_, by omega, hok.symm, fun hmand => ?_⟩
        · rcases hPos k (by omega) with h0 | h0
          · exact Or.inl h0
          · exact Or.inr (by rw [(hSame1.2 k).2.1]; omega)
        · obtain ⟨hact1, _⟩ := hmand1 hmand hact
          exact ⟨s1.arena.length, fun k hk1 hk2 => absurd hk2 (by omega),
            Or.inl hact1, Or.inl rfl⟩

theorem KPInv_totals (s : State) (tw ts tsh : XR) (h : KPInv s) :
    KPInv { s with total_width := tw, total_stretch := ts, total_shrink := tsh } :=
  ⟨h.ne, h.prev0, h.pos0, h.line0, h.prev_lt, h.prev_none, h.line_succ, h.pos_mono,
   h.link_lt, h.active_lt, h.ful⟩

theorem ends_mandatory_getD (items : List Item) (h : ends_mandatory items = true) :
    items ≠ [] ∧ (items.getD (items.length - 1) default).is_mandatory_break = true := by
  induction items with
  | nil => exact absurd h (by decide)
  | cons it rest ih =>
    cases rest with
    | nil => exact ⟨by simp, h⟩
    | cons it2 rest2 =>
      rw [ends_mandatory] at h
      obtain ⟨_, h2⟩ := ih h
      refine ⟨by simp, ?_⟩
      have hlen : (it :: it2 :: rest2).length - 1 = ((it2 :: rest2).length - 1) + 1 := by
        simp
      rw [hlen]
      exact h2

theorem kp_mandatory_legal (items : List Item) (b : Nat) (hb : b < items.length)
    (hm : (items.getD b default).is_mandatory_break = true) (w st sh : XR) (legal : Bool)
    (h : is_legal_breakpoint items b = some (w, st, sh, legal)) : legal = true := by
  rcases hit : items.get? b with _ | it
  · rw [List.get?_eq_none] at hit
    omega
  · have hgd : items.getD b default = it := by
      rw [List.getD_eq_get?, hit]
      rfl
    rw [hgd] at hm
    rw [is_legal_breakpoint, hit] at h
    cases it with
    | box _ => exact absurd hm (by simp [Item.is_mandatory_break])
    | glue _ _ _ => exact absurd hm (by simp [Item.is_mandatory_break])
    | penalty pw c f =>
      have hc : c = XR.ninf := by
        simpa [Item.is_mandatory_break] using hm
      subst hc
      simp only [Option.some.injEq, Prod.mk.injEq] at h
      rw [← h.2.2.2]
      decide

theorem run_loop_spec (items : List Item) (lw : XR) (cfg : Config) :
    ∀ (rest : List Item) (b : Nat) (s : State) (out : State),
    rest = items.drop b → b ≤ items.length →
    KPInv s → PosLt b s →
    run_loop items lw cfg rest b s = some (some out) →
    KPInv out ∧ PosLt items.length out
      ∧ (rest ≠ [] →
          (items.getD (items.length - 1) default).is_mandatory_break = true →
          ∃ m, SegP (items.length - 1) m out none) := by
  intro rest
  induction rest with
  | nil =>
    intro b s out hrest hble hInv hPos heq
    rw [run_loop] at heq
    simp only [Option.some.injEq] at heq
    subst heq
    have hlen : items.length - b = 0 := by
      have := congrArg List.length hrest
      simp at this
      omega
    have hb : b = items.length := by omega
    subst hb
    exact ⟨hInv, hPos, fun hc _ => absurd rfl hc⟩
  | cons it rest ih =>
    intro b s out hrest hble hInv hPos heq
    have hblt : b < items.length := by
      have := congrArg List.length hrest
      simp at this
      omega
    have hrest1 : rest = items.drop (b + 1) := by
      have : items.drop (b + 1) = (items.drop b).tail := (List.tail_drop items b).symm
      rw [this, ← hrest]
      rfl
    have hrlen : rest.length = items.length - (b + 1) := by
      have := congrArg List.length hrest1
      simpa using this
    rw [run_loop] at heq
    rcases hleg : is_legal_breakpoint items b with _ | ⟨w, st, sh, legal⟩
    · rw [hleg] at heq
      exact absurd heq (by simp)
    · simp only [hleg] at heq
      cases legal with
      | false =>
        simp only [Bool.false_eq_true, if_false, Bool.false_and, Bool.not_true] at heq
        obtain ⟨hIo, hPo, hSo⟩ :=
          ih (b + 1) _ out hrest1 (by omega) (KPInv_totals s _ _ _ hInv)
            (fun k hk => by
              rcases hPos k hk with h0 | h0
              · exact Or.inl h0
              · exact Or.inr (show (getN s k).position < b + 1 by omega))
            heq
        refine ⟨hIo, hPo, fun _ hmand => ?_⟩
        cases hre : rest with
        | nil =>
          have hb1 : b = items.length - 1 := by
            rw [hre] at hrlen
            simp at hrlen
            omega
          have hlegal : false = true :=
            kp_mandatory_legal items b hblt (hb1 ▸ hmand) w st sh false hleg
          exact absurd hlegal (by decide)
        | cons it2 rest2 =>
          exact hSo (by rw [hre]; simp) hmand
      | true =>
        simp only [if_true] at heq
        rcases hlb : layout_breakpoint items lw cfg s b with _ | ⟨s1, ok⟩
        · rw [hlb] at heq
          exact absurd heq (by simp)
        · simp only [hlb] at heq
          obtain ⟨hI1, hPle1, hlen1, hok1, hseg1⟩ :=
            layout_breakpoint_spec items lw cfg s b s1 ok hInv hPos hlb
          cases ok with
          | false =>
            simp only [Bool.not_false, Bool.and_true, if_true] at heq
            exact absurd heq (by simp)
          | true =>
            simp only [Bool.not_true, Bool.and_false, Bool.false_eq_true, if_false] at heq
            obtain ⟨hIo, hPo, hSo⟩ :=
              ih (b + 1) _ out hrest1 (by omega) (KPInv_totals s1 _ _ _ hI1)
                (fun k hk => by
                  rcases hPle1 k hk with h0 | h0
                  · exact Or.inl h0
                  · exact Or.inr (show (getN s1 k).position < b + 1 by omega))
                heq
            refine ⟨hIo, hPo, fun _ hmand => ?_⟩
            cases hre : rest with
            | nil =>
              have hb1 : b = items.length - 1 := by
                rw [hre] at hrlen
                simp at hrlen
                omega
              subst hre
              rw [run_loop] at heq
              simp only [Option.some.injEq] at heq
              obtain ⟨m, hsm⟩ := hseg1 (hb1 ▸ hmand)
              refine ⟨m, ?_⟩
              rw [← heq, ← hb1]
              exact hsm
            | cons it2 rest2 =>
              exact hSo (by rw [hre]; simp) hmand

theorem choose_min_succ (s : State) (fuel : Nat) (a : Option Nat) (best : Nat) :
    choose_min s (fuel + 1) a best
      = match a with
        | none => some best
        | some i =>
          choose_min s fuel (getN s i).link
            (if XR.blt (getN s i).total_demerits (getN s best).total_demerits then i
             else best) := rfl

theorem choose_min_spec (s : State) (m : Nat)
    (hN : ∀ k, m ≤ k → k < s.arena.length →
        ((getN s k).link = none
          ∨ ∃ j, (getN s k).link = some j ∧ m ≤ j ∧ j < s.arena.length)) :
    ∀ (fuel : Nat) (a : Option Nat) (best : Nat) (r : Nat),
    (a = none ∨ ∃ i, a = some i ∧ m ≤ i ∧ i < s.arena.length) →
    m ≤ best → best < s.arena.length →
    choose_min s fuel a best = some r →
    m ≤ r ∧ r < s.arena.length := by
  intro fuel
  induction fuel with
  | zero =>
    intro a best r _ _ _ heq
    have hz : choose_min s 0 a best = none := rfl
    rw [hz] at heq
    exact absurd heq (by simp)
  | succ fuel ih =>
    intro a best r ha hb1 hb2 heq
    rw [choose_min_succ] at heq
    rcases ha with ha | ⟨i, ha, him, hil⟩
    · subst ha
      simp only [Option.some.injEq] at heq
      subst heq
      exact ⟨hb1, hb2⟩
    · subst ha
      simp only at heq
      refine ih ((getN s i).link) _ r ?_ ?_ ?_ heq
      · rcases hN i him hil with h0 | ⟨j, hj1, hj2, hj3⟩
        · exact Or.inl h0
        · exact Or.inr ⟨j, hj1, hj2, hj3⟩
      · by_cases hc : XR.blt (getN s i).total_demerits (getN s best).total_demerits = true
        · rw [if_pos hc]
          exact him
        · rw [if_neg hc]
          exact hb1
      · by_cases hc : XR.blt (getN s i).total_demerits (getN s best).total_demerits = true
        · rw [if_pos hc]
          exact hil
        · rw [if_neg hc]
          exact hb2

theorem list_drop_set {α : Type} (l : List α) (j : Nat) (e : α) (h : j < l.length) :
    (l.set j e).drop j = e :: l.drop (j + 1) := by
  induction l generalizing j with
  | nil => simp at h
  | cons x xs ih =>
    cases j with
    | zero => simp
    | succ j2 =>
      show (xs.set j2 e).drop j2 = e :: xs.drop (j2 + 1)
      exact ih j2 (by simpa using h)

/-- The `Line` entry written for node `i` by one step of the reconstruction
walk in `run`. -/
def wlEntry (items : List Item) (lw : XR) (s : State) (i : Nat) : Line :=
  let nd := getN s i
  let prevTotals :=
    match nd.previous with
    | none => (XR.fin 0, XR.fin 0, XR.fin 0)
    | some p => ((getN s p).total_width, (getN s p).total_stretch, (getN s p).total_shrink)
  ⟨nd.position,
   adjustment_ratio (items.getD nd.position default) (nd.total_width - prevTotals.1)
     (nd.total_stretch - prevTotals.2.1) (nd.total_shrink - prevTotals.2.2) lw⟩

theorem walk_lines_succ (items : List Item) (lw : XR) (s : State) (j i : Nat)
    (lines : List Line) :
    walk_lines items lw s (j + 1) i lines
      = (match (getN s i).previous with
         | none => lines.set j (wlEntry items lw s i)
         | some p => walk_lines items lw s j p (lines.set j (wlEntry items lw s i))) := rfl

theorem walk_lines_spec (items : List Item) (lw : XR) (s : State) (hInv : KPInv s) :
    ∀ (j : Nat) (i : Nat) (lines : List Line),
    (getN s i).line = j → i < s.arena.length → 0 < j → j ≤ lines.length →
    ∃ pref : List Line,
      walk_lines items lw s j i lines = pref ++ lines.drop j
      ∧ pref.length = j
      ∧ List.Pairwise (· < ·) (pref.map Line.break_at)
      ∧ (pref.map Line.break_at).getLast? = some (getN s i).position
      ∧ (∀ x ∈ pref.map Line.break_at, x ≤ (getN s i).position) := by
  intro j
  induction j with
  | zero =>
    intro i lines _ _ h0 _
    omega
  | succ j ih =>
    intro i lines hline hi hpos hlen
    have hi0 : i ≠ 0 := by
      intro hc
      rw [hc, hInv.line0] at hline
      omega
    obtain ⟨p, hp⟩ : ∃ p, (getN s i).previous = some p := by
      rcases hpc : (getN s i).previous with _ | p
      · exact absurd (hInv.prev_none i hi hpc) hi0
      · exact ⟨p, rfl⟩
    have hplt : p < i := hInv.prev_lt i hi p hp
    have hplen : p < s.arena.length := by omega
    have hpline : (getN s p).line = j := by
      have := hInv.line_succ i hi p hp
      omega
    have hjlt : j < lines.length := by omega
    have hweq : walk_lines items lw s (j + 1) i lines
        = walk_lines items lw s j p (lines.set j (wlEntry items lw s i)) := by
      rw [walk_lines_succ]
      simp only [hp]
    cases Nat.eq_zero_or_pos j with
    | inl hj0 =>
      subst hj0
      rw [walk_lines] at hweq
      refine ⟨[wlEntry items lw s i], ?_, rfl, ?_, ?_, ?_⟩
      · have hds := list_drop_set lines 0 (wlEntry items lw s i) hjlt
        rw [List.drop_zero] at hds
        rw [hweq, hds]
        rfl
      · exact List.pairwise_singleton _ _
      · rfl
      · intro x hx
        simp only [List.map_cons, List.map_nil, List.mem_singleton] at hx
        subst hx
        exact Nat.le_refl _
    | inr hjpos =>
      have hp0 : p ≠ 0 := by
        intro hc
        rw [hc, hInv.line0] at hpline
        omega
      have hppn : (getN s p).previous ≠ none := by
        intro hc
        exact hp0 (hInv.prev_none p hplen hc)
      have hposlt : (getN s p).position < (getN s i).position :=
        hInv.pos_mono i hi p hp hppn
      obtain ⟨prefp, hw, hlenp, hpw, hlast, hbnd⟩ :=
        ih p (lines.set j (wlEntry items lw s i)) hpline hplen hjpos
          (by rw [List.length_set]; omega)
      have hdrop : (lines.set j (wlEntry items lw s i)).drop j
          = wlEntry items lw s i :: lines.drop (j + 1) := list_drop_set lines j _ hjlt
      refine ⟨prefp ++ [wlEntry items lw s i], ?_, ?_, ?_, ?_, ?_⟩
      · rw [hweq, hw, hdrop, List.append_assoc]
        rfl
      · rw [List.length_append, hlenp]
        rfl
      · rw [List.map_append]
        rw [List.pairwise_append]
        refine ⟨hpw, List.pairwise_singleton _ _, ?_⟩
        intro x hx y hy
        simp only [List.map_cons, List.map_nil, List.mem_singleton] at hy
        subst hy
        have hxle := hbnd x hx
        show x < (getN s i).position
        omega
      · rw [List.map_append]
        exact List.getLast?_concat _
      · intro x hx
        rw [List.map_append, List.mem_append] at hx
        rcases hx with hx | hx
        · have := hbnd x hx
          show x ≤ (getN s i).position
          omega
        · simp only [List.map_cons, List.map_nil, List.mem_singleton] at hx
          subst hx
          exact Nat.le_refl _

theorem kp_initial_KPInv :
    KPInv ⟨[default], 0, XR.fin 0, XR.fin 0, XR.fin 0, some 0⟩ := by
  have hlen : (State.mk [default] 0 (XR.fin 0) (XR.fin 0) (XR.fin 0)
      (some 0)).arena.length = 1 := rfl
  refine ⟨by simp, rfl, rfl, rfl, ?_, ?_, ?_, ?_, ?_, ?_, rfl⟩
  · intro i hi p hp
    rw [hlen] at hi
    have hieq : i = 0 := by omega
    subst hieq
    exact absurd hp (by simp [getN])
  · intro i hi _
    rw [hlen] at hi
    omega
  · intro i hi p hp
    rw [hlen] at hi
    have hieq : i = 0 := by omega
    subst hieq
    exact absurd hp (by simp [getN])
  · intro i hi p hp
    rw [hlen] at hi
    have hieq : i = 0 := by omega
    subst hieq
    exact absurd hp (by simp [getN])
  · intro i hi j hj
    rw [hlen] at hi
    have hieq : i = 0 := by omega
    subst hieq
    exact absurd hj (by simp [getN])
  · intro h2 hh
    simp only [Option.some.injEq] at hh
    subst hh
    rw [hlen]
    omega

/-- The Knuth-Plass half of the breakpoint invariant: on input ending in a
mandatory break, a returned non-empty line list has strictly increasing
`break_at` indices ending at the terminal item. -/
theorem kp_breaks (items : List Item) (lw : XR) (cfg : Config) (ls : List Line)
    (hwf : ends_mandatory items = true)
    (heq : layout_paragraph items lw cfg = some ls) (hne : ls ≠ []) :
    List.Pairwise (· < ·) (ls.map Line.break_at)
      ∧ (ls.map Line.break_at).getLast? = some (items.length - 1) := by
  obtain ⟨hitems_ne, hmand⟩ := ends_mandatory_getD items hwf
  rw [layout_paragraph, run] at heq
  rcases hrl : run_loop items lw cfg items 0
      ⟨[default], 0, XR.fin 0, XR.fin 0, XR.fin 0, some 0⟩ with _ | os
  · rw [hrl] at heq
    exact absurd heq (by simp)
  · rcases os with _ | s
    · rw [hrl] at heq
      simp only [Option.some.injEq] at heq
      exact absurd heq.symm hne
    · obtain ⟨hIs, hPs, hSeg⟩ :=
        run_loop_spec items lw cfg items 0
          ⟨[default], 0, XR.fin 0, XR.fin 0, XR.fin 0, some 0⟩ s
          (List.drop_zero items).symm (Nat.zero_le _) kp_initial_KPInv
          (fun k hk => by
            have hl : (State.mk [default] 0 (XR.fin 0) (XR.fin 0) (XR.fin 0)
                (some 0)).arena.length = 1 := rfl
            rw [hl] at hk
            omega)
          hrl
      obtain ⟨m, hN, hA, _⟩ := hSeg hitems_ne hmand
      simp only [hrl] at heq
      rcases hact : s.active with _ | hd
      · rw [hact] at heq
        simp only [Option.some.injEq] at heq
        exact absurd heq.symm hne
      · simp only [hact] at heq
        have hhd : m ≤ hd ∧ hd < s.arena.length := by
          rcases hA with h0 | ⟨h2, hh1, hh2, hh3⟩
          · rw [hact] at h0
            cases h0
          · rw [hact] at hh1
            cases hh1
            exact ⟨hh2, hh3⟩
        rcases hcm : choose_min s (s.arena.length + 1) (some hd) hd with _ | bIdx
        · rw [hcm] at heq
          exact absurd heq (by simp)
        · simp only [hcm] at heq
          have hbIdx : m ≤ bIdx ∧ bIdx < s.arena.length :=
            choose_min_spec s m (fun k hk1 hk2 => (hN k hk1 hk2).2)
              (s.arena.length + 1) (some hd) hd bIdx
              (Or.inr ⟨hd, rfl, hhd.1, hhd.2⟩) hhd.1 hhd.2 hcm
          have hposB : (getN s bIdx).position = items.length - 1 :=
            (hN bIdx hbIdx.1 hbIdx.2).1
          simp only [Option.some.injEq] at heq
          rcases hL : (getN s bIdx).line with _ | L
          · rw [hL] at heq
            exact absurd heq.symm hne
          · rw [hL] at heq
            obtain ⟨pref, hw, hlenp, hpw, hlast, _⟩ :=
              walk_lines_spec items lw s hIs (L + 1) bIdx
                (List.replicate (L + 1) default) hL hbIdx.2 (by omega)
                (by rw [List.length_replicate])
            rw [hw] at heq
            have hdrop : (List.replicate (L + 1) (default : Line)).drop (L + 1) = [] := by
              rw [List.drop_eq_nil_iff_le, List.length_replicate]
            rw [hdrop, List.append_nil] at heq
            subst heq
            rw [hposB] at hlast
            exact ⟨hpw, hlast⟩

end KnuthPlass

/-- C4: for a well-formed paragraph (non-empty, ending in its single
mandatory-break penalty), every non-empty line sequence returned by either
`FirstFit::layout_paragraph` or `KnuthPlass::layout_paragraph` has strictly
increasing `break_at` indices, and the last `break_at` is the index of the
terminal mandatory-break penalty item. -/
theorem c4_breaks_increasing_and_terminal (items : List Item) (lw th : XR) (ao : Bool)
    (cfg : KnuthPlass.Config) (resF resK : List Line)
    (hwf : well_formed items = true) :
    (FirstFit.layout_paragraph items lw th ao = resF → resF ≠ [] →
      List.Pairwise (· < ·) (resF.map Line.break_at)
        ∧ (resF.map Line.break_at).getLast? = some (items.length - 1))
    ∧ (KnuthPlass.layout_paragraph items lw cfg = some resK → resK ≠ [] →
      List.Pairwise (· < ·) (resK.map Line.break_at)
        ∧ (resK.map Line.break_at).getLast? = some (items.length - 1)) := by
  have hem : ends_mandatory items = true := ends_mandatory_of_well_formed items hwf
  constructor
  · intro hF hne
    rw [FirstFit.layout_paragraph] at hF
    have hc := ff_loop_breaks lw th ao items none 0
        ⟨XR.ofInt 0, XR.ofInt 0, XR.ofInt 0, []⟩ none resF hem
        List.Pairwise.nil (fun l hl => absurd hl (List.not_mem_nil l))
        (fun bk hbk => by cases hbk) hF hne
    simpa using hc
  · intro hK hne
    exact KnuthPlass.kp_breaks items lw cfg resK hem hK hne

/-- Witness for C4 at the concrete paragraph `c2_items` (which is
well-formed): both layouts' results satisfy the invariant. -/
theorem c4_breaks_increasing_and_terminal_witness :
    (List.Pairwise (· < ·)
        ((FirstFit.layout_paragraph c2_items (XR.ofInt 3) XR.inf true).map Line.break_at)
      ∧ ((FirstFit.layout_paragraph c2_items (XR.ofInt 3) XR.inf true).map
          Line.break_at).getLast? = some (c2_items.length - 1))
    ∧ (List.Pairwise (· < ·) (([⟨5, XR.fin (-1)⟩] : List Line).map Line.break_at)
      ∧ (([⟨5, XR.fin (-1)⟩] : List Line).map Line.break_at).getLast?
          = some (c2_items.length - 1)) :=
  ⟨(c4_breaks_increasing_and_terminal c2_items (XR.ofInt 3) XR.inf true c2_cfg0
      (FirstFit.layout_paragraph c2_items (XR.ofInt 3) XR.inf true) [⟨5, XR.fin (-1)⟩]
      (by decide)).1 rfl (by decide),
   (c4_breaks_increasing_and_terminal c2_items (XR.ofInt 3) XR.inf true c2_cfg0
      (FirstFit.layout_paragraph c2_items (XR.ofInt 3) XR.inf true) [⟨5, XR.fin (-1)⟩]
      (by decide)).2 (by decide!) (by decide)⟩

/-! ## Claim C8: observable outcomes of the Knuth-Plass layout -/

/-- A well-formed paragraph that begins with glue: `is_legal_breakpoint(0)`
evaluates `items[0 - 1]` (`usize` underflow) and panics. -/
def c8_panic_items : List Item :=
  [Item.glue (XR.ofInt 1) (XR.ofInt 1) (XR.ofInt 0), Item.box (XR.ofInt 1),
   Item.penalty (XR.ofInt 0) XR.ninf false]

/-- Counterexample to C8: on a well-formed paragraph whose first item is
glue, `KnuthPlass::layout_paragraph` panics (modelled `none`) - a third
observable outcome beyond the empty and non-empty line sequences. -/
theorem c8_counterexample_leading_glue_panics :
    well_formed c8_panic_items = true
      ∧ KnuthPlass.layout_paragraph c8_panic_items (XR.ofInt 3)
          ⟨XR.ofInt 100, XR.ofInt 20000, XR.ofInt 1, 0⟩ = none := by
  decide

/-- C8 amended: a panic is a third observable outcome, but the
active-list-empties clause holds: when processing a legal breakpoint `b`
leaves the active list empty, the breakpoint loop returns the infeasibility
marker at once, and a loop returning that marker makes
`layout_paragraph` return the empty sequence. -/
theorem c8_active_empty_infeasible (items : List Item) (lw : XR)
    (cfg : KnuthPlass.Config) (it : Item) (rest : List Item) (b : Nat)
    (s s1 : KnuthPlass.State) (ok : Bool) (w st sh : XR)
    (hleg : KnuthPlass.is_legal_breakpoint items b = some (w, st, sh, true))
    (hlb : KnuthPlass.layout_breakpoint items lw cfg s b = some (s1, ok))
    (hempty : s1.active = none) :
    KnuthPlass.run_loop items lw cfg (it :: rest) b s = some none
      ∧ (KnuthPlass.run_loop items lw cfg items 0
            ⟨[default], 0, XR.fin 0, XR.fin 0, XR.fin 0, some 0⟩ = some none →
          KnuthPlass.layout_paragraph items lw cfg = some []) := by
  constructor
  · have hok : ok = false := by
      rw [KnuthPlass.layout_breakpoint] at hlb
      rcases hgo : KnuthPlass.layout_breakpoint_go items lw cfg.threshold
          cfg.flagged_demerit cfg.fitness_demerit b (s.arena.length + 2) s s.active none
        with _ | s2
      · rw [hgo] at hlb
        exact absurd hlb (by simp)
      · rw [hgo] at hlb
        simp only [Option.some.injEq, Prod.mk.injEq] at hlb
        rw [← hlb.2, hlb.1, hempty]
        rfl
    subst hok
    rw [KnuthPlass.run_loop, hleg]
    simp only [if_true, hlb, Bool.not_false, Bool.and_true, ite_true]
  · intro hloop
    rw [KnuthPlass.layout_paragraph, KnuthPlass.run]
    simp only [hloop]

/-- Witness for the amended C8: an overfull unshrinkable one-box paragraph
at threshold 1 empties the active list at the terminal breakpoint, and the
layout returns the empty sequence. -/
theorem c8_active_empty_infeasible_witness :
    KnuthPlass.run_loop [Item.box (XR.ofInt 5), Item.penalty (XR.ofInt 0) XR.ninf false]
        (XR.ofInt 1) ⟨XR.ofInt 100, XR.ofInt 20000, XR.ofInt 1, 0⟩
        [Item.penalty (XR.ofInt 0) XR.ninf false] 1
        ⟨[default], 0, XR.fin 5, XR.fin 0, XR.fin 0, some 0⟩ = some none
      ∧ (KnuthPlass.run_loop
            [Item.box (XR.ofInt 5), Item.penalty (XR.ofInt 0) XR.ninf false]
            (XR.ofInt 1) ⟨XR.ofInt 100, XR.ofInt 20000, XR.ofInt 1, 0⟩
            [Item.box (XR.ofInt 5), Item.penalty (XR.ofInt 0) XR.ninf false] 0
            ⟨[default], 0, XR.fin 0, XR.fin 0, XR.fin 0, some 0⟩ = some none →
          KnuthPlass.layout_paragraph
            [Item.box (XR.ofInt 5), Item.penalty (XR.ofInt 0) XR.ninf false]
            (XR.ofInt 1) ⟨XR.ofInt 100, XR.ofInt 20000, XR.ofInt 1, 0⟩ = some []) :=
  c8_active_empty_infeasible
    [Item.box (XR.ofInt 5), Item.penalty (XR.ofInt 0) XR.ninf false] (XR.ofInt 1)
    ⟨XR.ofInt 100, XR.ofInt 20000, XR.ofInt 1, 0⟩
    (Item.penalty (XR.ofInt 0) XR.ninf false) [] 1
    ⟨[default], 0, XR.fin 5, XR.fin 0, XR.fin 0, some 0⟩
    ⟨[default], 0, XR.fin 5, XR.fin 0, XR.fin 0, none⟩ false
    (XR.ofInt 0) (XR.ofInt 0) (XR.ofInt 0)
    (by decide) (by decide) rfl
